import Mathlib

/-!
Shallow embedding of the `wast` crate's type-expansion resolver
(`crates/wast/src/resolve/types.rs`), the block-type/value-type binary
encoders (`crates/wast/src/binary.rs`), the component encoder stubs
(`crates/wast/src/binary.rs`, `crates/wast/src/ast/component.rs`), and the
peephole mutation engine (`crates/wasm-mutate/src/mutators/peephole/mod.rs`),
together with theorems checking the specification's claims about them.
-/

namespace Wast

/-- Byte-offset span marker (`Span`); never affects encoding, kept as a bare
offset. -/
abbrev Span := Nat

/-- Modelled from the spec: symbolic identifier (`Id`), either user-written
text or a compiler-synthesized gensym carrying a unique number.  The `Id`
type itself is declared outside `src/`. -/
inductive Ident where
  | text : String → Ident
  | gensym : Nat → Ident
deriving DecidableEq

/-- Modelled from the spec: an index is either symbolic (pre-resolution) or
numeric (post-resolution).  Declared outside `src/`; constructors fixed by
the pattern matches in `resolve/types.rs` and `binary.rs`. -/
inductive Index where
  | id : Ident → Index
  | num : Nat → Index
deriving DecidableEq

/-- Heap types, constructors fixed by `impl Encode for HeapType` in
`binary.rs`. -/
inductive HeapType where
  | func
  | externRef
  | any
  | eq
  | data
  | i31
  | index : Index → HeapType
deriving DecidableEq

/-- Reference types, fields fixed by `impl Encode for RefType` in
`binary.rs`. -/
structure RefType where
  nullable : Bool
  heap : HeapType
deriving DecidableEq

/-- Value types, constructors fixed by `impl Encode for ValType` in
`binary.rs`. -/
inductive ValType where
  | i32
  | i64
  | f32
  | f64
  | v128
  | rtt : Option Nat → Index → ValType
  | ref : RefType → ValType
deriving DecidableEq

/-- Function types: ordered parameters (optional id, optional name, value
type) and ordered results, as used by `FunctionType::key` and
`impl Encode for FunctionType`. -/
structure FunctionType where
  params : List (Option Ident × Option String × ValType)
  results : List ValType
deriving DecidableEq

/-- `FunctionType::default()`: the empty signature. -/
def FunctionType.default : FunctionType := ⟨[], []⟩

/-- Type definitions (`TypeDef`); the struct/array payloads are opaque to the
expander, which only inspects the `Func` case. -/
inductive TypeDef where
  | func : FunctionType → TypeDef
  | strct : Nat → TypeDef
  | array : Nat → TypeDef
deriving DecidableEq

/-- A `type` module field (source struct `Type`; renamed because `Type` is a
Lean keyword).  The source field `def` is rendered `tydef`. -/
structure TypeF where
  span : Span
  id : Option Ident
  name : Option String
  tydef : TypeDef
deriving DecidableEq

/-- Modelled from the spec: `ItemRef` is declared outside `src/`; we keep its
index and the `visited` flag set by `expand_type_use`, dropping the constant
`kind` keyword and the empty `extra_names`. -/
structure ItemRef where
  idx : Index
  visited : Bool
deriving DecidableEq

/-- A type use: an optional resolved index plus the optional inline
signature sugar. -/
structure TypeUse where
  index : Option ItemRef
  inline : Option FunctionType
deriving DecidableEq

/-- Block type attached to control-flow instructions; the label fields are
inert for type expansion and omitted (declared outside `src/`). -/
structure BlockType where
  ty : TypeUse
deriving DecidableEq

/-- `LetType`: a block type plus locals (locals opaque here). -/
structure LetType where
  block : BlockType
  locals : Nat
deriving DecidableEq

/-- `FuncBindType`: carries a type use. -/
structure FuncBindType where
  ty : TypeUse
deriving DecidableEq

/-- `CallIndirect` payload: a type use and a table index. -/
structure CallIndirect where
  ty : TypeUse
  table : Index
deriving DecidableEq

/-- Instructions, restricted to the constructors `expand_instr` matches on;
all remaining instructions are inert for expansion and collapsed into
`other` with an opaque tag. -/
inductive Instruction where
  | block : BlockType → Instruction
  | if_ : BlockType → Instruction
  | loop : BlockType → Instruction
  | let_ : LetType → Instruction
  | try_ : BlockType → Instruction
  | funcBind : FuncBindType → Instruction
  | callIndirect : CallIndirect → Instruction
  | returnCallIndirect : CallIndirect → Instruction
  | other : Nat → Instruction
deriving DecidableEq

/-- An expression: a flat instruction list. -/
structure Expression where
  instrs : List Instruction
deriving DecidableEq

/-- Function bodies: inline (locals opaque, expression) or imported. -/
inductive FuncKind where
  | inline : Nat → Expression → FuncKind
  | importK : Nat → FuncKind
deriving DecidableEq

/-- A `func` module field (id kept; name/exports inert and omitted). -/
structure Func where
  id : Option Ident
  ty : TypeUse
  kind : FuncKind
deriving DecidableEq

/-- Global kinds: inline initializer expression or import. -/
inductive GlobalKind where
  | inline : Expression → GlobalKind
  | importK : Nat → GlobalKind
deriving DecidableEq

/-- A `global` module field. -/
structure Global where
  id : Option Ident
  kind : GlobalKind
deriving DecidableEq

/-- Data segment kinds: passive or active with a memory index and offset
expression. -/
inductive DataKind where
  | passive : DataKind
  | active : Index → Expression → DataKind
deriving DecidableEq

/-- A `data` module field (payload bytes opaque). -/
structure Data where
  kind : DataKind
  payload : Nat
deriving DecidableEq

/-- Element segment kinds. -/
inductive ElemKind where
  | passive : ElemKind
  | declared : ElemKind
  | active : Index → Expression → ElemKind
deriving DecidableEq

/-- Element payloads: index lists or expression lists with a ref type. -/
inductive ElemPayload where
  | indices : List Index → ElemPayload
  | exprs : RefType → List Expression → ElemPayload
deriving DecidableEq

/-- An `elem` module field. -/
structure Elem where
  kind : ElemKind
  payload : ElemPayload
deriving DecidableEq

/-- Tag types: only exceptions, carrying a type use. -/
inductive TagType where
  | exception : TypeUse → TagType
deriving DecidableEq

/-- A `tag` module field. -/
structure Tag where
  ty : TagType
deriving DecidableEq

/-- Import item kinds (`ItemKind` in `ast/import.rs`); table/memory/global
payloads are inert for expansion. -/
inductive ItemKind where
  | func : TypeUse → ItemKind
  | table : Nat → ItemKind
  | memory : Nat → ItemKind
  | global : Nat → ItemKind
  | tag : TagType → ItemKind
deriving DecidableEq

/-- An import item signature (`ItemSig` in `ast/import.rs`). -/
structure ItemSig where
  id : Option Ident
  kind : ItemKind
deriving DecidableEq

/-- An `import` module field (`Import` in `ast/import.rs`). -/
structure Import where
  module : String
  field : String
  item : ItemSig
deriving DecidableEq

/-- Module fields (`ModuleField`); `import`/`export` are Lean keywords so
those constructors carry an `F` suffix.  Table/memory/export/custom payloads
are opaque: the expander never reads them. -/
inductive ModuleField where
  | typ : TypeF → ModuleField
  | importF : Import → ModuleField
  | func : Func → ModuleField
  | table : Nat → ModuleField
  | memory : Nat → ModuleField
  | global : Global → ModuleField
  | exportF : Nat → ModuleField
  | start : Index → ModuleField
  | elem : Elem → ModuleField
  | data : Data → ModuleField
  | tag : Tag → ModuleField
  | custom : Nat → ModuleField
deriving DecidableEq

/-- The structural interning key: ordered parameter types and ordered result
types (`type FuncKey<'a>`). -/
abbrev FuncKey := List ValType × List ValType

/-- `FunctionType::key`: strip ids and names from parameters. -/
def FunctionType.key (f : FunctionType) : FuncKey :=
  (f.params.map (fun p => p.2.2), f.results)

/-- `FuncKey::to_def`: rebuild an anonymous function type from a key. -/
def keyToDef (k : FuncKey) : TypeDef :=
  TypeDef.func ⟨k.1.map (fun t => (none, none, t)), k.2⟩

/-- The expander state (`struct Expander`): the import-early flag, the
interning map (modelled as an association list, insertion-ordered; iteration
order is never observed, only `get`), the pending prepend list and the
gensym counter. -/
structure Expander where
  process_imports_early : Bool
  func_type_to_idx : List (FuncKey × Index)
  to_prepend : List ModuleField
  gensym : Nat
deriving DecidableEq

/-- Association-list lookup backing the interning `HashMap`'s `get`. -/
def lookupKey : List (FuncKey × Index) → FuncKey → Option Index
  | [], _ => none
  | (k2, i) :: rest, k => if k2 = k then some i else lookupKey rest k

/-- `FuncKey::insert`: `entry(key).or_insert(idx)` — keep an existing
binding, otherwise append the new one. -/
def insertKey (st : Expander) (k : FuncKey) (idx : Index) : Expander :=
  match lookupKey st.func_type_to_idx k with
  | some _ => st
  | none => { st with func_type_to_idx := st.func_type_to_idx ++ [(k, idx)] }

/-- Modelled from the spec: the gensym module (`resolve/gensym.rs`) is not
under `src/`.  `gen` bumps the counter and returns a fresh gensym id. -/
def Expander.gen (st : Expander) (_span : Span) : Ident × Expander :=
  (Ident.gensym (st.gensym + 1), { st with gensym := st.gensym + 1 })

/-- Modelled from the spec: gensym `fill` keeps an existing id and otherwise
generates a fresh one into the slot. -/
def Expander.fill (st : Expander) (span : Span) (slot : Option Ident) :
    Ident × Option Ident × Expander :=
  match slot with
  | some i => (i, some i, st)
  | none =>
    let p := st.gen span
    (p.1, some p.1, p.2)

/-- `Expander::key_to_idx`: look the key up, and on a miss synthesize a fresh
gensym-named type field onto `to_prepend` and record the mapping. -/
def Expander.key_to_idx (st : Expander) (span : Span) (k : FuncKey) :
    Expander × Index :=
  match lookupKey st.func_type_to_idx k with
  | some idx => (st, idx)
  | none =>
    let p := st.gen span
    let st1 : Expander :=
      { p.2 with to_prepend :=
          p.2.to_prepend ++ [ModuleField.typ ⟨span, some p.1, none, keyToDef k⟩] }
    (insertKey st1 k (Index.id p.1), Index.id p.1)

/-- `Expander::expand_type_use` (at `T = FunctionType`, the only module-level
instantiation): an existing index is returned (marking it visited); otherwise
the inline signature's key (or the default signature's key) is interned at
the manufactured span 0 and the index filled in.  The inline annotation is
left in place. -/
def Expander.expand_type_use (st : Expander) (item : TypeUse) :
    Expander × TypeUse × Index :=
  match item.index with
  | some r => (st, { item with index := some { r with visited := true } }, r.idx)
  | none =>
    let key := match item.inline with
      | some ty => ty.key
      | none => FunctionType.default.key
    let p := st.key_to_idx 0 key
    (p.1, { item with index := some ⟨p.2, true⟩ }, p.2)

/-- The shared block-type arm of `Expander::expand_instr`: keep an explicit
index; keep a zero-parameter at-most-one-result inline signature (so the
short-form block encoding stays available); default a missing inline to the
empty signature; otherwise intern through `expand_type_use`. -/
def Expander.expand_block_ty (st : Expander) (bt : BlockType) :
    Expander × BlockType :=
  if bt.ty.index.isSome then (st, bt)
  else
    match bt.ty.inline with
    | some inl =>
      if inl.params.length = 0 ∧ inl.results.length ≤ 1 then (st, bt)
      else
        let p := st.expand_type_use bt.ty
        (p.1, { bt with ty := p.2.1 })
    | none =>
      (st, { bt with ty := { bt.ty with inline := some FunctionType.default } })

/-- `Expander::expand_instr`. -/
def Expander.expand_instr (st : Expander) (i : Instruction) :
    Expander × Instruction :=
  match i with
  | .block bt =>
    let p := st.expand_block_ty bt
    (p.1, .block p.2)
  | .if_ bt =>
    let p := st.expand_block_ty bt
    (p.1, .if_ p.2)
  | .loop bt =>
    let p := st.expand_block_ty bt
    (p.1, .loop p.2)
  | .let_ lt =>
    let p := st.expand_block_ty lt.block
    (p.1, .let_ { lt with block := p.2 })
  | .try_ bt =>
    let p := st.expand_block_ty bt
    (p.1, .try_ p.2)
  | .funcBind b =>
    let p := st.expand_type_use b.ty
    (p.1, .funcBind { b with ty := p.2.1 })
  | .callIndirect c =>
    let p := st.expand_type_use c.ty
    (p.1, .callIndirect { c with ty := p.2.1 })
  | .returnCallIndirect c =>
    let p := st.expand_type_use c.ty
    (p.1, .returnCallIndirect { c with ty := p.2.1 })
  | .other n => (st, .other n)

/-- State-threaded expansion of an instruction list (the loop in
`expand_expression`). -/
def Expander.expand_instrs (st : Expander) :
    List Instruction → Expander × List Instruction
  | [] => (st, [])
  | i :: rest =>
    let p := st.expand_instr i
    let q := p.1.expand_instrs rest
    (q.1, p.2 :: q.2)

/-- `Expander::expand_expression`. -/
def Expander.expand_expression (st : Expander) (e : Expression) :
    Expander × Expression :=
  let p := st.expand_instrs e.instrs
  (p.1, ⟨p.2⟩)

/-- State-threaded expansion of an expression list (active element
payloads). -/
def Expander.expand_exprs (st : Expander) :
    List Expression → Expander × List Expression
  | [] => (st, [])
  | e :: rest =>
    let p := st.expand_expression e
    let q := p.1.expand_exprs rest
    (q.1, p.2 :: q.2)

/-- `Expander::expand_item_sig`: expand func and tag signatures, leave
global/table/memory items alone. -/
def Expander.expand_item_sig (st : Expander) (item : ItemSig) :
    Expander × ItemSig :=
  match item.kind with
  | .func t =>
    let p := st.expand_type_use t
    (p.1, { item with kind := .func p.2.1 })
  | .tag (.exception t) =>
    let p := st.expand_type_use t
    (p.1, { item with kind := .tag (.exception p.2.1) })
  | _ => (st, item)

/-- `Expander::expand_header`: fill gensyms on type fields and register their
function-type keys; expand imports only when `process_imports_early`. -/
def Expander.expand_header (st : Expander) (item : ModuleField) :
    Expander × ModuleField :=
  match item with
  | .typ ty =>
    let p := st.fill ty.span ty.id
    let ty1 : TypeF := { ty with id := p.2.1 }
    match ty1.tydef with
    | .func f => (insertKey p.2.2 f.key (Index.id p.1), .typ ty1)
    | _ => (p.2.2, .typ ty1)
  | .importF i =>
    if st.process_imports_early then
      let p := st.expand_item_sig i.item
      (p.1, .importF { i with item := p.2 })
    else (st, .importF i)
  | f => (st, f)

/-- `Expander::expand` (the body pass on one field). -/
def Expander.expand (st : Expander) (item : ModuleField) :
    Expander × ModuleField :=
  match item with
  | .typ t => (st, .typ t)
  | .importF i =>
    if st.process_imports_early then (st, .importF i)
    else
      let p := st.expand_item_sig i.item
      (p.1, .importF { i with item := p.2 })
  | .func f =>
    let p := st.expand_type_use f.ty
    match f.kind with
    | .inline locals e =>
      let q := p.1.expand_expression e
      (q.1, .func { f with ty := p.2.1, kind := .inline locals q.2 })
    | .importK _ => (p.1, .func { f with ty := p.2.1 })
  | .global g =>
    match g.kind with
    | .inline e =>
      let p := st.expand_expression e
      (p.1, .global { g with kind := .inline p.2 })
    | .importK _ => (st, .global g)
  | .data d =>
    match d.kind with
    | .active mem off =>
      let p := st.expand_expression off
      (p.1, .data { d with kind := .active mem p.2 })
    | .passive => (st, .data d)
  | .elem el =>
    let p := match el.kind with
      | .active tbl off =>
        let q := st.expand_expression off
        (q.1, ElemKind.active tbl q.2)
      | k => (st, k)
    let q := match el.payload with
      | .exprs ty exprs =>
        let r := p.1.expand_exprs exprs
        (r.1, ElemPayload.exprs ty r.2)
      | pl => (p.1, pl)
    (q.1, .elem { el with kind := p.2, payload := q.2 })
  | .tag t =>
    match t.ty with
    | .exception ty =>
      let p := st.expand_type_use ty
      (p.1, .tag { t with ty := .exception p.2.1 })
  | .table n => (st, .table n)
  | .memory n => (st, .memory n)
  | .start i => (st, .start i)
  | .exportF n => (st, .exportF n)
  | .custom n => (st, .custom n)

/-- The header while-loop of `Expander::process`: expand the field under the
cursor, splice any pending prepend fields in front of it, and advance the
cursor past them and it. -/
def Expander.header_loop (st : Expander) (fields : List ModuleField)
    (cur : Nat) : Expander × List ModuleField :=
  if h : cur < fields.length then
    let p := st.expand_header (fields.get ⟨cur, h⟩)
    let fields1 := fields.set cur p.2
    let pre := p.1.to_prepend
    let st1 : Expander := { p.1 with to_prepend := [] }
    st1.header_loop (fields1.take cur ++ pre ++ fields1.drop cur)
      (cur + pre.length + 1)
  else (st, fields)
termination_by fields.length - cur
decreasing_by
  simp only [List.length_append, List.length_take, List.length_drop,
    List.length_set]
  omega

/-- State-threaded body pass over the whole field list (the second loop of
`Expander::process`). -/
def Expander.expand_fields (st : Expander) :
    List ModuleField → Expander × List ModuleField
  | [] => (st, [])
  | f :: rest =>
    let p := st.expand f
    let q := p.1.expand_fields rest
    (q.1, p.2 :: q.2)

/-- `Expander::process`: header pass, then body pass, then append the pending
type fields at the end. -/
def Expander.process (st : Expander) (fields : List ModuleField) :
    Expander × List ModuleField :=
  let p := st.header_loop fields 0
  let q := p.1.expand_fields p.2
  ({ q.1 with to_prepend := [] }, q.2 ++ q.1.to_prepend)

/-- The crate-level `expand` entry point of `resolve/types.rs`: run a fresh
expander (imports not early, empty map, empty prepend list) at gensym
counter `g` over the fields. -/
def expand_types (fields : List ModuleField) (g : Nat) : List ModuleField :=
  (Expander.process ⟨false, [], [], g⟩ fields).2

/-! Binary encoding fragments from `binary.rs` needed by the claims:
unsigned/signed LEB128 and the value-type, heap-type and block-type
encoders.  An encoder that would `panic!` in Rust returns `none`. -/

/-- Unsigned LEB128 (`leb128::write::unsigned`), for nonnegative values. -/
def uleb128 (n : Nat) : List Nat :=
  if h : n < 128 then [n]
  else (n % 128 + 128) :: uleb128 (n / 128)
termination_by n
decreasing_by
  exact Nat.div_lt_self (by omega) (by omega)

/-- Signed LEB128 (`leb128::write::signed`), restricted to the nonnegative
values arising from `i64::from(u32)` in the block-type encoder. -/
def sleb128 (n : Nat) : List Nat :=
  if h : n / 128 = 0 ∧ n % 128 < 64 then [n % 128]
  else (n % 128 + 128) :: sleb128 (n / 128)
termination_by n
decreasing_by
  refine Nat.div_lt_self ?_ (by omega)
  rcases Nat.eq_zero_or_pos n with hz | hp
  · subst hz; simp at h
  · exact hp

/-- `impl Encode for Index`: numeric indices are ULEB-encoded, a surviving
symbolic index is a fatal internal error (`none`). -/
def encodeIndex : Index → Option (List Nat)
  | .num n => some (uleb128 n)
  | .id _ => none

/-- `impl Encode for HeapType`. -/
def encodeHeapType : HeapType → Option (List Nat)
  | .func => some [0x70]
  | .externRef => some [0x6f]
  | .any => some [0x6e]
  | .eq => some [0x6d]
  | .data => some [0x67]
  | .i31 => some [0x6a]
  | .index i => encodeIndex i

/-- `impl Encode for RefType`: the nullable abbreviations first, then the
generic forms. -/
def encodeRefType (r : RefType) : Option (List Nat) :=
  match r with
  | ⟨true, .func⟩ => some [0x70]
  | ⟨true, .externRef⟩ => some [0x6f]
  | ⟨true, .eq⟩ => some [0x6d]
  | ⟨true, .data⟩ => some [0x67]
  | ⟨true, .i31⟩ => some [0x6a]
  | ⟨true, h⟩ => (encodeHeapType h).map (fun l => 0x6c :: l)
  | ⟨false, h⟩ => (encodeHeapType h).map (fun l => 0x6b :: l)

/-- `impl Encode for ValType`. -/
def encodeValType : ValType → Option (List Nat)
  | .i32 => some [0x7f]
  | .i64 => some [0x7e]
  | .f32 => some [0x7d]
  | .f64 => some [0x7c]
  | .v128 => some [0x7b]
  | .rtt (some depth) i =>
    (encodeIndex i).map (fun l => 0x69 :: (uleb128 depth ++ l))
  | .rtt none i => (encodeIndex i).map (fun l => 0x68 :: l)
  | .ref r => encodeRefType r

/-- `impl Encode for BlockType`: a numeric index is emitted as a signed LEB;
otherwise the inline signature must be present, the empty signature becomes
`0x40`, a single result becomes its value-type encoding, and a multi-value
signature without an index is a panic (`none`). -/
def encodeBlockType (bt : BlockType) : Option (List Nat) :=
  match bt.ty.index with
  | some ⟨Index.num n, _⟩ => some (sleb128 n)
  | _ =>
    match bt.ty.inline with
    | none => none
    | some ty =>
      match ty.params, ty.results with
      | [], [] => some [0x40]
      | [], [r] => encodeValType r
      | _, _ => none

/-! The component surface from `ast/component.rs` and `binary.rs`: the
encoder is a stub returning no bytes for text components, and `validate`
rejects multiple start fields. -/

/-- Component fields (`ComponentField`); all payloads are opaque, since the
component encoder never reads them. -/
inductive ComponentField where
  | typ : Nat → ComponentField
  | importF : Nat → ComponentField
  | func : Nat → ComponentField
  | exportF : Nat → ComponentField
  | start : Nat → ComponentField
  | custom : Nat → ComponentField
  | instanceF : Nat → ComponentField
  | module : Nat → ComponentField
  | component : Nat → ComponentField
  | alias : Nat → ComponentField
deriving DecidableEq

/-- Kinds of component definitions: textual field lists or raw binary
chunks. -/
inductive ComponentKind where
  | text : List ComponentField → ComponentKind
  | binary : List (List Nat) → ComponentKind
deriving DecidableEq

/-- A parsed component (id and name opaque). -/
structure Component where
  id : Option Nat
  name : Option Nat
  kind : ComponentKind
deriving DecidableEq

/-- `encode_component_fields` in `binary.rs`: the body is commented out
upstream (`/* TODO */`) and the function returns an empty buffer. -/
def encode_component_fields (_id : Option Nat) (_name : Option Nat)
    (_fields : List ComponentField) : List Nat := []

/-- `encode_component` in `binary.rs`: text components go through the stub,
binary components concatenate their chunks. -/
def encode_component (c : Component) : List Nat :=
  match c.kind with
  | .text fields => encode_component_fields c.id c.name fields
  | .binary bytes => bytes.flatten

/-- `Component::resolve`: a `TODO` stub that always succeeds. -/
def Component.resolve (_c : Component) : Except String Unit := Except.ok ()

/-- `Component::encode`: resolve, then hand to the binary encoder. -/
def Component.encode (c : Component) : Except String (List Nat) :=
  match c.resolve with
  | .error e => .error e
  | .ok () => .ok (encode_component c)

/-- Predicate for start fields of a component. -/
def ComponentField.isStart : ComponentField → Bool
  | .start _ => true
  | _ => false

/-- `Component::validate`: count start fields of a textual component and
reject more than one. -/
def Component.validate (c : Component) : Except String Unit :=
  let starts := match c.kind with
    | .text fields => fields.countP (fun f => f.isStart)
    | .binary _ => 0
  if starts > 1 then .error "multiple start sections found" else .ok ()

/-- Predicate for start fields of a module. -/
def ModuleField.isStart : ModuleField → Bool
  | .start _ => true
  | _ => false

/-- Modelled from the spec: `Module::validate` lives in `ast/module.rs`,
which is not under `src/`; per the spec a second `start` field is "a hard
module-well-formedness error raised before encoding begins".  It mirrors
`Component::validate`. -/
def moduleValidate (fields : List ModuleField) : Except String Unit :=
  if fields.countP (fun f => f.isStart) > 1
  then .error "multiple start sections found" else .ok ()

/-- The start bucket of `encode_module_fields`: fields are bucketed by kind
and only `start.get(0)` is emitted as a section. -/
def startFields (fields : List ModuleField) : List Index :=
  fields.filterMap (fun f => match f with | .start i => some i | _ => none)

/-- The start section `encode_module_fields` would emit:
`if let Some(start) = start.get(0) { e.section(8, start) }`. -/
def encodedStart (fields : List ModuleField) : Option Index :=
  (startFields fields).head?

end Wast

namespace Mutate

/-!
Shallow embedding of `PeepholeMutator::mutate` from
`crates/wasm-mutate/src/mutators/peephole/mod.rs`.  The external crates it
drives (`wasmparser`, `wasm-encoder`, `rand`) are not part of this
repository; their visible behaviour is modelled: decoding results are given
as `Except` values, the seeded PRNG is a deterministic stream of naturals,
and `HashMap` key-iteration order (which Rust leaves unspecified) is an
explicit reordering oracle.  A Rust `panic!`/`unwrap` failure is the
`crash` outcome.
-/

/-- Modelled from the spec: decoded operators are opaque tokens (the engine
only hands them to `can_mutate` and counts them). -/
abbrev Operator := Nat

/-- Decidable equality for `Except`, needed by the structures below. -/
instance {ε α : Type} [DecidableEq ε] [DecidableEq α] :
    DecidableEq (Except ε α) := fun x y =>
  match x, y with
  | .error a, .error b =>
    if h : a = b then .isTrue (by rw [h])
    else .isFalse (fun he => h (by cases he; rfl))
  | .error _, .ok _ => .isFalse (fun he => Except.noConfusion he)
  | .ok _, .error _ => .isFalse (fun he => Except.noConfusion he)
  | .ok a, .ok b =>
    if h : a = b then .isTrue (by rw [h])
    else .isFalse (fun he => h (by cases he; rfl))

/-- Modelled from the spec: one entry of the decoded code section — the raw
byte range of the function body and the outcome of decoding its operator
sequence (`get_operators_reader` / `collect`). -/
structure FunctionBody where
  bytes : List Nat
  ops : Except Nat (List Operator)
deriving DecidableEq

/-- Modelled from the spec: the seedable PRNG (`SmallRng`): a fixed stream
of draws and a position.  Two runs with the same seed share the same
stream. -/
structure Rng where
  stream : Nat → Nat
  pos : Nat

/-- `rnd.gen_range(lo, hi)`: uniform draw in `[lo, hi)`; an empty range
panics in `rand`, modelled as `none`. -/
def genRange (rnd : Rng) (lo hi : Nat) : Option (Nat × Rng) :=
  if lo < hi then
    some (lo + rnd.stream rnd.pos % (hi - lo), { rnd with pos := rnd.pos + 1 })
  else none

/-- The `CodeMutator` trait object: a grouping name, the applicability test
(which returns `Result<bool>`), and the rewrite itself. -/
structure CodeMutator where
  name : String
  can_mutate : List Operator → Nat → Except Nat Bool
  mutate : Rng → FunctionBody → Nat → List Nat → Except Nat (List Nat × Rng)

/-- Outcomes of the engine: success, the dedicated
`Error::NotMatchingPeepholes`, a propagated decode error
(`Error::from(BinaryReaderError)`, via `?`), or a Rust panic (`crash`). -/
inductive MResult (α : Type) where
  | ok : α → MResult α
  | notMatchingPeepholes : MResult α
  | parseErr : Nat → MResult α
  | crash : MResult α
deriving DecidableEq

/-- One emitted code-section entry: a re-encoded function
(`codes.function`) or verbatim raw bytes (`codes.raw`). -/
inductive CodeEntry where
  | fn : List Nat → CodeEntry
  | raw : List Nat → CodeEntry
deriving DecidableEq

/-- The rotation scan order `(s..n).chain(0..s)`. -/
def rot (s n : Nat) : List Nat :=
  (List.range n).drop s ++ (List.range n).take s

/-- Record an applicable position under a mutator name:
`entry(name).or_insert(Vec::new()).push(pos)` on the grouping map, with the
map kept in insertion order. -/
def addPos (m : List (String × List (Nat × Nat))) (k : String)
    (p : Nat × Nat) : List (String × List (Nat × Nat)) :=
  match m with
  | [] => [(k, [p])]
  | (k2, ps) :: rest =>
    if k2 = k then (k2, ps ++ [p]) :: rest else (k2, ps) :: addPos rest k p

/-- Association lookup backing `applicable[mutatoridx]`. -/
def lookupPos : List (String × List (Nat × Nat)) → String →
    Option (List (Nat × Nat))
  | [], _ => none
  | (k2, ps) :: rest, k => if k2 = k then some ps else lookupPos rest k

/-- `sectionreader.read().unwrap()` over all entries: any read error is a
panic. -/
def sequenceReads : List (Except Nat FunctionBody) →
    Option (List FunctionBody)
  | [] => some []
  | .error _ :: _ => none
  | .ok b :: rest => (sequenceReads rest).map (fun l => b :: l)

/-- The inner operator scan of one function: ask the single registered
mutator at each rotated position; a `can_mutate` error is an `unwrap`
panic. -/
def scanOps (sc : CodeMutator) (ops : List Operator) (fidx : Nat) :
    List Nat → List (String × List (Nat × Nat)) →
    Option (List (String × List (Nat × Nat)))
  | [], acc => some acc
  | idx :: rest, acc =>
    match sc.can_mutate ops idx with
    | .error _ => none
    | .ok b =>
      scanOps sc ops fidx rest (if b then addPos acc sc.name (fidx, idx) else acc)

/-- The outer function scan: for each rotated function index, unwrap its
operator decode, draw the operator rotation start, and run the inner
scan. -/
def scanFuncs (sc : CodeMutator) (bodies : List FunctionBody) :
    List Nat → Rng → List (String × List (Nat × Nat)) →
    Option (Rng × List (String × List (Nat × Nat)))
  | [], rnd, acc => some (rnd, acc)
  | fidx :: rest, rnd, acc =>
    match bodies.get? fidx with
    | none => none
    | some b =>
      match b.ops with
      | .error _ => none
      | .ok ops =>
        match genRange rnd 0 ops.length with
        | none => none
        | some (o0, rnd1) =>
          match scanOps sc ops fidx (rot o0 ops.length) acc with
          | none => none
          | some acc1 => scanFuncs sc bodies rest rnd1 acc1

/-- The selection phase of `PeepholeMutator::mutate`: parse the section,
draw the function rotation start, read all bodies, scan for applicable
sites, then pick a mutator name (through the key-order oracle `ord`) and a
site for it.  Returns the decoded bodies, the chosen (function, operator)
position, the chosen mutator name and the advanced PRNG. -/
def pselect (rnd : Rng) (sec : Except Nat (List (Except Nat FunctionBody)))
    (sc : CodeMutator) (ord : List String → List String) :
    MResult (List FunctionBody × Nat × Nat × String × Rng) :=
  match sec with
  | .error e => .parseErr e
  | .ok entries =>
    match genRange rnd 0 entries.length with
    | none => .crash
    | some (f0, rnd1) =>
      match sequenceReads entries with
      | none => .crash
      | some bodies =>
        match scanFuncs sc bodies (rot f0 bodies.length) rnd1 [] with
        | none => .crash
        | some (rnd2, applicable) =>
          if applicable.isEmpty then .notMatchingPeepholes
          else
            let keys := ord (applicable.map Prod.fst)
            match genRange rnd2 0 keys.length with
            | none => .crash
            | some (ki, rnd3) =>
              match keys.get? ki with
              | none => .crash
              | some key =>
                match lookupPos applicable key with
                | none => .crash
                | some positions =>
                  match genRange rnd3 0 positions.length with
                  | none => .crash
                  | some (pi, rnd4) =>
                    match positions.get? pi with
                    | none => .crash
                    | some pos => .ok (bodies, pos.1, pos.2, key, rnd4)

/-- The re-emission loop: the chosen function goes through the mutator's
rewrite (`codes.function`), every other function is copied verbatim
(`codes.raw` of its original byte range). -/
def reemit (sc : CodeMutator) (rnd : Rng) (data : List Nat)
    (bodies : List FunctionBody) (f o : Nat) : MResult (List CodeEntry) :=
  match bodies.get? f with
  | none => .crash
  | some bf =>
    match sc.mutate rnd bf o data with
    | .error _ => .crash
    | .ok (newBytes, _) =>
      .ok ((List.range bodies.length).map (fun i =>
        if i = f then CodeEntry.fn newBytes
        else CodeEntry.raw (((bodies.get? i).getD ⟨[], .ok []⟩).bytes)))

/-- `PeepholeMutator::mutate`: selection followed by re-emission.  `data` is
the raw code-section payload handed to the mutator's rewrite. -/
def pmutate (rnd : Rng) (data : List Nat)
    (sec : Except Nat (List (Except Nat FunctionBody)))
    (sc : CodeMutator) (ord : List String → List String) :
    MResult (List CodeEntry) :=
  match pselect rnd sec sc ord with
  | .ok (bodies, f, o, _, rnd1) => reemit sc rnd1 data bodies f o
  | .notMatchingPeepholes => .notMatchingPeepholes
  | .parseErr e => .parseErr e
  | .crash => .crash

end Mutate

namespace Wast

/-! Predicates and auxiliary definitions used to state the claims. -/

/-- The five module-field kinds the expander never touches. -/
def isInert : ModuleField → Bool
  | .table _ | .memory _ | .start _ | .exportF _ | .custom _ => true
  | _ => false

/-- Type fields. -/
def isTypeField : ModuleField → Bool
  | .typ _ => true
  | _ => false

/-- The twelve field kinds, for stating kind preservation. -/
inductive FieldKind where
  | typK
  | importK
  | funcK
  | tableK
  | memoryK
  | globalK
  | exportK
  | startK
  | elemK
  | dataK
  | tagK
  | customK
deriving DecidableEq

/-- The kind tag of a module field. -/
def fieldKind : ModuleField → FieldKind
  | .typ _ => .typK
  | .importF _ => .importK
  | .func _ => .funcK
  | .table _ => .tableK
  | .memory _ => .memoryK
  | .global _ => .globalK
  | .exportF _ => .exportK
  | .start _ => .startK
  | .elem _ => .elemK
  | .data _ => .dataK
  | .tag _ => .tagK
  | .custom _ => .customK

/-- `isInert` as a function of the field's kind tag. -/
def inertKind : FieldKind → Bool
  | .tableK | .memoryK | .startK | .exportK | .customK => true
  | _ => false

/-- The type-field kind tag. -/
def isTypK : FieldKind → Bool
  | .typK => true
  | _ => false

/-- A type use that expansion has already filled in: index present and
marked visited. -/
def tuResolved (tu : TypeUse) : Prop :=
  ∃ r, tu.index = some r ∧ r.visited = true

/-- A block type expansion leaves alone: explicit index, or a short inline
signature (no parameters, at most one result). -/
def blockResolved (bt : BlockType) : Prop :=
  bt.ty.index.isSome = true ∨
    ∃ ft, bt.ty.inline = some ft ∧ ft.params = [] ∧ ft.results.length ≤ 1

/-- Instructions the body pass leaves alone. -/
def instrResolved : Instruction → Prop
  | .block bt | .if_ bt | .loop bt | .try_ bt => blockResolved bt
  | .let_ lt => blockResolved lt.block
  | .funcBind b => tuResolved b.ty
  | .callIndirect c | .returnCallIndirect c => tuResolved c.ty
  | .other _ => True

/-- Expressions whose instructions are all resolved. -/
def exprResolved (e : Expression) : Prop :=
  ∀ i ∈ e.instrs, instrResolved i

/-- Item signatures whose type uses are resolved. -/
def sigResolved (s : ItemSig) : Prop :=
  match s.kind with
  | .func tu => tuResolved tu
  | .tag (.exception tu) => tuResolved tu
  | _ => True

/-- Fields the whole resolver pass leaves alone (the state after one run). -/
def fieldResolved : ModuleField → Prop
  | .typ t => t.id.isSome = true
  | .importF i => sigResolved i.item
  | .func f =>
    tuResolved f.ty ∧
      (match f.kind with | .inline _ e => exprResolved e | .importK _ => True)
  | .global g =>
    (match g.kind with | .inline e => exprResolved e | .importK _ => True)
  | .data d =>
    (match d.kind with | .active _ off => exprResolved off | .passive => True)
  | .elem el =>
    (match el.kind with
      | .active _ off => exprResolved off
      | _ => True) ∧
      (match el.payload with
        | .exprs _ es => ∀ e ∈ es, exprResolved e
        | .indices _ => True)
  | .tag t => (match t.ty with | .exception tu => tuResolved tu)
  | _ => True

/-- What the header pass guarantees about a field: type fields carry an
id. -/
def headerDone : ModuleField → Prop
  | .typ t => t.id.isSome = true
  | _ => True

/-- The prepend list grows only by synthesized, gensym-named type fields. -/
def prependExt (a b : List ModuleField) : Prop :=
  ∃ ext, b = a ++ ext ∧
    ∀ f ∈ ext, ∃ t : TypeF, f = ModuleField.typ t ∧ t.id.isSome = true

/-- Structural companion of the header while-loop: a plain state-threaded
fold with `expand_header` (equal to `header_loop` whenever the loop starts
with an empty prepend list and imports are not processed early; proved
below). -/
def Expander.header_fold (st : Expander) :
    List ModuleField → Expander × List ModuleField
  | [] => (st, [])
  | f :: rest =>
    let p := st.expand_header f
    let q := p.1.header_fold rest
    (q.1, p.2 :: q.2)

/-- The five control-flow instruction constructors carrying a block type,
packaged for uniform statements (`3` is `let` with its locals payload). -/
def mkCtrl (c : Fin 5) (loc : Nat) (bt : BlockType) : Instruction :=
  match c with
  | ⟨0, _⟩ => .block bt
  | ⟨1, _⟩ => .if_ bt
  | ⟨2, _⟩ => .loop bt
  | ⟨3, _⟩ => .let_ ⟨bt, loc⟩
  | ⟨4, _⟩ => .try_ bt

/-- A function field with an inline signature and an empty body. -/
def mkInlineFunc (id : Option Ident) (ft : FunctionType) (loc : Nat) :
    ModuleField :=
  .func ⟨id, ⟨none, some ft⟩, .inline loc ⟨[]⟩⟩

/-- The same function field after expansion at gensym counter `g`: the
interned index filled in, the inline annotation kept. -/
def resolvedFunc (id : Option Ident) (ft : FunctionType) (loc : Nat)
    (g : Nat) : ModuleField :=
  .func ⟨id, ⟨some ⟨Index.id (Ident.gensym (g + 1)), true⟩, some ft⟩,
    .inline loc ⟨[]⟩⟩

end Wast

namespace Mutate

/-! Concrete inputs used by witnesses and counterexamples. -/

/-- A concrete PRNG: the all-zero stream. -/
def rng0 : Rng := ⟨fun _ => 0, 0⟩

/-- A mutator that never applies. -/
def scFalse : CodeMutator :=
  ⟨"swap", fun _ _ => .ok false, fun r _ _ _ => .ok ([], r)⟩

/-- A mutator that always applies and appends a marker byte. -/
def scTrue : CodeMutator :=
  ⟨"swap", fun _ _ => .ok true, fun r b _ _ => .ok (b.bytes ++ [9], r)⟩

/-- The identity key-order oracle. -/
def ordId : List String → List String := fun l => l

end Mutate

namespace Wast

/-! Helper lemmas about the expander state. -/

theorem insertKey_pie (st : Expander) (k : FuncKey) (i : Index) :
    (insertKey st k i).process_imports_early = st.process_imports_early := by
  unfold insertKey; split <;> rfl

theorem insertKey_to_prepend (st : Expander) (k : FuncKey) (i : Index) :
    (insertKey st k i).to_prepend = st.to_prepend := by
  unfold insertKey; split <;> rfl

theorem key_to_idx_pie (st : Expander) (s : Span) (k : FuncKey) :
    (st.key_to_idx s k).1.process_imports_early = st.process_imports_early := by
  unfold Expander.key_to_idx
  split
  · rfl
  · rw [insertKey_pie]; rfl

theorem key_to_idx_to_prepend (st : Expander) (s : Span) (k : FuncKey) :
    (st.key_to_idx s k).1.to_prepend = st.to_prepend ∨
      ∃ t : TypeF, t.id.isSome = true ∧
        (st.key_to_idx s k).1.to_prepend = st.to_prepend ++ [.typ t] := by
  unfold Expander.key_to_idx
  split
  · exact Or.inl rfl
  · refine Or.inr ⟨⟨s, some (Ident.gensym (st.gensym + 1)), none, keyToDef k⟩,
      rfl, ?_⟩
    rw [insertKey_to_prepend]
    rfl

theorem expand_type_use_pie (st : Expander) (tu : TypeUse) :
    (st.expand_type_use tu).1.process_imports_early =
      st.process_imports_early := by
  unfold Expander.expand_type_use
  split
  · rfl
  · exact key_to_idx_pie ..

theorem expand_type_use_to_prepend (st : Expander) (tu : TypeUse) :
    (st.expand_type_use tu).1.to_prepend = st.to_prepend ∨
      ∃ t : TypeF, t.id.isSome = true ∧
        (st.expand_type_use tu).1.to_prepend = st.to_prepend ++ [.typ t] := by
  unfold Expander.expand_type_use
  split
  · exact Or.inl rfl
  · exact key_to_idx_to_prepend ..

theorem expand_block_ty_pie (st : Expander) (bt : BlockType) :
    (st.expand_block_ty bt).1.process_imports_early =
      st.process_imports_early := by
  unfold Expander.expand_block_ty
  split
  · rfl
  · split
    · split
      · rfl
      · exact expand_type_use_pie ..
    · rfl

theorem expand_block_ty_to_prepend (st : Expander) (bt : BlockType) :
    (st.expand_block_ty bt).1.to_prepend = st.to_prepend ∨
      ∃ t : TypeF, t.id.isSome = true ∧
        (st.expand_block_ty bt).1.to_prepend = st.to_prepend ++ [.typ t] := by
  unfold Expander.expand_block_ty
  split
  · exact Or.inl rfl
  · split
    · split
      · exact Or.inl rfl
      · exact expand_type_use_to_prepend ..
    · exact Or.inl rfl

theorem expand_instr_pie (st : Expander) (i : Instruction) :
    (st.expand_instr i).1.process_imports_early =
      st.process_imports_early := by
  unfold Expander.expand_instr
  cases i <;> first
    | rfl
    | exact expand_block_ty_pie ..
    | exact expand_type_use_pie ..

theorem expand_instr_to_prepend (st : Expander) (i : Instruction) :
    (st.expand_instr i).1.to_prepend = st.to_prepend ∨
      ∃ t : TypeF, t.id.isSome = true ∧
        (st.expand_instr i).1.to_prepend = st.to_prepend ++ [.typ t] := by
  unfold Expander.expand_instr
  cases i <;> first
    | exact Or.inl rfl
    | exact expand_block_ty_to_prepend ..
    | exact expand_type_use_to_prepend ..

end Wast

namespace Wast

theorem prependExt_refl (a : List ModuleField) : prependExt a a :=
  ⟨[], by simp, by simp⟩

theorem prependExt_trans {a b c : List ModuleField} (h1 : prependExt a b)
    (h2 : prependExt b c) : prependExt a c := by
  obtain ⟨e1, rfl, g1⟩ := h1
  obtain ⟨e2, rfl, g2⟩ := h2
  refine ⟨e1 ++ e2, by simp, ?_⟩
  intro f hf
  rcases List.mem_append.1 hf with h | h
  · exact g1 f h
  · exact g2 f h

theorem prependExt_of_or {a b : List ModuleField}
    (h : b = a ∨ ∃ t : TypeF, t.id.isSome = true ∧ b = a ++ [.typ t]) :
    prependExt a b := by
  rcases h with rfl | ⟨t, ht, rfl⟩
  · exact prependExt_refl _
  · refine ⟨[.typ t], rfl, ?_⟩
    intro f hf
    rw [List.mem_singleton] at hf
    subst hf
    exact ⟨t, rfl, ht⟩

theorem expand_type_use_prependExt (st : Expander) (tu : TypeUse) :
    prependExt st.to_prepend (st.expand_type_use tu).1.to_prepend :=
  prependExt_of_or (expand_type_use_to_prepend st tu)

theorem expand_instr_prependExt (st : Expander) (i : Instruction) :
    prependExt st.to_prepend (st.expand_instr i).1.to_prepend :=
  prependExt_of_or (expand_instr_to_prepend st i)

theorem expand_instrs_pie (st : Expander) (l : List Instruction) :
    (st.expand_instrs l).1.process_imports_early =
      st.process_imports_early := by
  induction l generalizing st with
  | nil => rfl
  | cons i rest ih =>
    show ((st.expand_instr i).1.expand_instrs rest).1.process_imports_early = _
    rw [ih, expand_instr_pie]

theorem expand_instrs_prependExt (st : Expander) (l : List Instruction) :
    prependExt st.to_prepend (st.expand_instrs l).1.to_prepend := by
  induction l generalizing st with
  | nil => exact prependExt_refl _
  | cons i rest ih =>
    exact prependExt_trans (expand_instr_prependExt st i)
      (ih (st.expand_instr i).1)

theorem expand_expression_pie (st : Expander) (e : Expression) :
    (st.expand_expression e).1.process_imports_early =
      st.process_imports_early := expand_instrs_pie ..

theorem expand_expression_prependExt (st : Expander) (e : Expression) :
    prependExt st.to_prepend (st.expand_expression e).1.to_prepend :=
  expand_instrs_prependExt ..

theorem expand_exprs_pie (st : Expander) (l : List Expression) :
    (st.expand_exprs l).1.process_imports_early =
      st.process_imports_early := by
  induction l generalizing st with
  | nil => rfl
  | cons e rest ih =>
    show ((st.expand_expression e).1.expand_exprs rest).1.process_imports_early
      = _
    rw [ih, expand_expression_pie]

theorem expand_exprs_prependExt (st : Expander) (l : List Expression) :
    prependExt st.to_prepend (st.expand_exprs l).1.to_prepend := by
  induction l generalizing st with
  | nil => exact prependExt_refl _
  | cons e rest ih =>
    exact prependExt_trans (expand_expression_prependExt st e)
      (ih (st.expand_expression e).1)

theorem expand_item_sig_pie (st : Expander) (s : ItemSig) :
    (st.expand_item_sig s).1.process_imports_early =
      st.process_imports_early := by
  unfold Expander.expand_item_sig
  split
  · exact expand_type_use_pie ..
  · exact expand_type_use_pie ..
  · rfl

theorem expand_item_sig_prependExt (st : Expander) (s : ItemSig) :
    prependExt st.to_prepend (st.expand_item_sig s).1.to_prepend := by
  unfold Expander.expand_item_sig
  split
  · exact expand_type_use_prependExt ..
  · exact expand_type_use_prependExt ..
  · exact prependExt_refl _

theorem expand_pie (st : Expander) (f : ModuleField) :
    (st.expand f).1.process_imports_early = st.process_imports_early := by
  unfold Expander.expand
  cases f with
  | typ t => rfl
  | importF i =>
    dsimp only
    split
    · rfl
    · exact expand_item_sig_pie ..
  | func f =>
    dsimp only
    split
    · rw [expand_expression_pie, expand_type_use_pie]
    · exact expand_type_use_pie ..
  | global g =>
    dsimp only
    split
    · exact expand_expression_pie ..
    · rfl
  | data d =>
    dsimp only
    split
    · exact expand_expression_pie ..
    · rfl
  | elem el =>
    dsimp only
    split <;> split <;>
      first
        | rfl
        | exact expand_expression_pie ..
        | exact expand_exprs_pie ..
        | (rw [expand_exprs_pie, expand_expression_pie])
  | tag t => exact expand_type_use_pie ..
  | table n => rfl
  | memory n => rfl
  | start i => rfl
  | exportF n => rfl
  | custom n => rfl

theorem expand_prependExt (st : Expander) (f : ModuleField) :
    prependExt st.to_prepend (st.expand f).1.to_prepend := by
  unfold Expander.expand
  cases f with
  | typ t => exact prependExt_refl _
  | importF i =>
    dsimp only
    split
    · exact prependExt_refl _
    · exact expand_item_sig_prependExt ..
  | func f =>
    dsimp only
    split
    · exact prependExt_trans (expand_type_use_prependExt ..)
        (expand_expression_prependExt ..)
    · exact expand_type_use_prependExt ..
  | global g =>
    dsimp only
    split
    · exact expand_expression_prependExt ..
    · exact prependExt_refl _
  | data d =>
    dsimp only
    split
    · exact expand_expression_prependExt ..
    · exact prependExt_refl _
  | elem el =>
    dsimp only
    split <;> split <;>
      first
        | exact prependExt_refl _
        | exact expand_expression_prependExt ..
        | exact expand_exprs_prependExt ..
        | exact prependExt_trans (expand_expression_prependExt ..)
            (expand_exprs_prependExt ..)
  | tag t => exact expand_type_use_prependExt ..
  | table n => exact prependExt_refl _
  | memory n => exact prependExt_refl _
  | start i => exact prependExt_refl _
  | exportF n => exact prependExt_refl _
  | custom n => exact prependExt_refl _

end Wast

namespace Wast

/-! Helper lemmas about the header pass. -/

theorem fill_slot_isSome (st : Expander) (s : Span) (slot : Option Ident) :
    (st.fill s slot).2.1.isSome = true := by
  unfold Expander.fill
  cases slot <;> rfl

theorem fill_pie (st : Expander) (s : Span) (slot : Option Ident) :
    (st.fill s slot).2.2.process_imports_early = st.process_imports_early := by
  unfold Expander.fill
  cases slot <;> rfl

theorem fill_to_prepend (st : Expander) (s : Span) (slot : Option Ident) :
    (st.fill s slot).2.2.to_prepend = st.to_prepend := by
  unfold Expander.fill
  cases slot <;> rfl

theorem expand_header_pie (st : Expander) (f : ModuleField) :
    (st.expand_header f).1.process_imports_early =
      st.process_imports_early := by
  unfold Expander.expand_header
  cases f with
  | typ t =>
    dsimp only
    split
    · rw [insertKey_pie, fill_pie]
    · rw [fill_pie]
  | importF i =>
    dsimp only
    split
    · exact expand_item_sig_pie ..
    · rfl
  | func f => rfl
  | table n => rfl
  | memory n => rfl
  | global g => rfl
  | exportF n => rfl
  | start i => rfl
  | elem e => rfl
  | data d => rfl
  | tag t => rfl
  | custom n => rfl

theorem expand_header_to_prepend (st : Expander) (f : ModuleField)
    (hpie : st.process_imports_early = false) :
    (st.expand_header f).1.to_prepend = st.to_prepend := by
  unfold Expander.expand_header
  cases f with
  | typ t =>
    dsimp only
    split
    · rw [insertKey_to_prepend, fill_to_prepend]
    · rw [fill_to_prepend]
  | importF i =>
    dsimp only
    rw [hpie]
    rfl
  | func f => rfl
  | table n => rfl
  | memory n => rfl
  | global g => rfl
  | exportF n => rfl
  | start i => rfl
  | elem e => rfl
  | data d => rfl
  | tag t => rfl
  | custom n => rfl

theorem expand_header_headerDone (st : Expander) (f : ModuleField) :
    headerDone (st.expand_header f).2 := by
  unfold Expander.expand_header
  cases f with
  | typ t =>
    dsimp only
    split <;> exact fill_slot_isSome ..
  | importF i =>
    dsimp only
    split <;> trivial
  | func f => trivial
  | table n => trivial
  | memory n => trivial
  | global g => trivial
  | exportF n => trivial
  | start i => trivial
  | elem e => trivial
  | data d => trivial
  | tag t => trivial
  | custom n => trivial

theorem expand_header_kind (st : Expander) (f : ModuleField) :
    fieldKind (st.expand_header f).2 = fieldKind f := by
  unfold Expander.expand_header
  cases f with
  | typ t =>
    dsimp only
    split <;> rfl
  | importF i =>
    dsimp only
    split <;> rfl
  | func f => rfl
  | table n => rfl
  | memory n => rfl
  | global g => rfl
  | exportF n => rfl
  | start i => rfl
  | elem e => rfl
  | data d => rfl
  | tag t => rfl
  | custom n => rfl

theorem expand_header_inert (st : Expander) (f : ModuleField)
    (h : isInert f = true) : st.expand_header f = (st, f) := by
  cases f <;> first
    | rfl
    | exact absurd h (by simp [isInert])

theorem expand_header_not_typ (st : Expander) (f : ModuleField)
    (hpie : st.process_imports_early = false)
    (h : isTypeField f = false) : st.expand_header f = (st, f) := by
  unfold Expander.expand_header
  cases f with
  | typ t => exact absurd h (by simp [isTypeField])
  | importF i =>
    dsimp only
    rw [hpie]
    rfl
  | func f => rfl
  | table n => rfl
  | memory n => rfl
  | global g => rfl
  | exportF n => rfl
  | start i => rfl
  | elem e => rfl
  | data d => rfl
  | tag t => rfl
  | custom n => rfl

theorem expand_header_resolved_snd (st : Expander) (f : ModuleField)
    (hpie : st.process_imports_early = false)
    (h : fieldResolved f) : (st.expand_header f).2 = f := by
  cases f with
  | typ t =>
    obtain ⟨i, hi⟩ := Option.isSome_iff_exists.1 h
    unfold Expander.expand_header Expander.fill
    dsimp only
    rw [hi]
    dsimp only
    have ht : ({ t with id := some i } : TypeF) = t := by
      cases t
      simp_all
    rw [ht]
    split <;> rfl
  | _ => rw [expand_header_not_typ st _ hpie (by simp [isTypeField])]

end Wast

namespace Wast

/-! Header fold lemmas and the loop characterization. -/

theorem header_fold_state (st : Expander) (l : List ModuleField)
    (hpie : st.process_imports_early = false) :
    (st.header_fold l).1.process_imports_early = false ∧
      (st.header_fold l).1.to_prepend = st.to_prepend := by
  induction l generalizing st with
  | nil => exact ⟨hpie, rfl⟩
  | cons f rest ih =>
    have hp : (st.expand_header f).1.process_imports_early = false := by
      rw [expand_header_pie]; exact hpie
    have h2 := ih (st.expand_header f).1 hp
    constructor
    · show ((st.expand_header f).1.header_fold rest).1.process_imports_early
        = false
      exact h2.1
    · show ((st.expand_header f).1.header_fold rest).1.to_prepend
        = st.to_prepend
      rw [h2.2, expand_header_to_prepend st f hpie]

theorem header_fold_headerDone (st : Expander) (l : List ModuleField) :
    ∀ f ∈ (st.header_fold l).2, headerDone f := by
  induction l generalizing st with
  | nil => intro f hf; cases hf
  | cons g rest ih =>
    intro f hf
    rcases List.mem_cons.1 hf with rfl | hf
    · exact expand_header_headerDone ..
    · exact ih (st.expand_header g).1 f hf

theorem header_fold_kinds (st : Expander) (l : List ModuleField) :
    (st.header_fold l).2.map fieldKind = l.map fieldKind := by
  induction l generalizing st with
  | nil => rfl
  | cons f rest ih =>
    show fieldKind (st.expand_header f).2 ::
        ((st.expand_header f).1.header_fold rest).2.map fieldKind = _
    rw [expand_header_kind, ih, List.map_cons]

theorem isInert_eq_kind (f : ModuleField) :
    isInert f = inertKind (fieldKind f) := by
  cases f <;> rfl

theorem header_fold_filter_inert (st : Expander) (l : List ModuleField) :
    (st.header_fold l).2.filter isInert = l.filter isInert := by
  induction l generalizing st with
  | nil => rfl
  | cons f rest ih =>
    show ((st.expand_header f).2 ::
        ((st.expand_header f).1.header_fold rest).2).filter isInert = _
    rw [List.filter_cons, List.filter_cons]
    have hik : isInert (st.expand_header f).2 = isInert f := by
      rw [isInert_eq_kind, isInert_eq_kind, expand_header_kind]
    rw [hik, ih]
    by_cases hi : isInert f = true
    · rw [if_pos hi, if_pos hi]
      have := expand_header_inert st f hi
      rw [this]
    · rw [if_neg hi, if_neg hi]

theorem header_fold_resolved_snd (st : Expander) (l : List ModuleField)
    (hpie : st.process_imports_early = false)
    (h : ∀ f ∈ l, fieldResolved f) : (st.header_fold l).2 = l := by
  induction l generalizing st with
  | nil => rfl
  | cons f rest ih =>
    show (st.expand_header f).2 ::
        ((st.expand_header f).1.header_fold rest).2 = _
    rw [expand_header_resolved_snd st f hpie (h f (by simp)),
      ih (st.expand_header f).1 (by rw [expand_header_pie]; exact hpie)
        (fun g hg => h g (by simp [hg]))]

theorem header_fold_no_typ (st : Expander) (l : List ModuleField)
    (hpie : st.process_imports_early = false)
    (h : ∀ f ∈ l, isTypeField f = false) : st.header_fold l = (st, l) := by
  induction l generalizing st with
  | nil => rfl
  | cons f rest ih =>
    show (let p := st.expand_header f
      let q := p.1.header_fold rest
      (q.1, p.2 :: q.2)) = _
    rw [expand_header_not_typ st f hpie (h f (by simp))]
    dsimp only
    rw [ih st hpie (fun g hg => h g (by simp [hg]))]

theorem to_prepend_eta (st : Expander) (h : st.to_prepend = []) :
    ({ st with to_prepend := [] } : Expander) = st := by
  cases st
  simp_all

theorem header_loop_eq_fold_aux (n : Nat) : ∀ (st : Expander)
    (fields : List ModuleField) (cur : Nat),
    fields.length - cur ≤ n →
    st.process_imports_early = false → st.to_prepend = [] →
    st.header_loop fields cur =
      ((st.header_fold (fields.drop cur)).1,
        fields.take cur ++ (st.header_fold (fields.drop cur)).2) := by
  induction n with
  | zero =>
    intro st fields cur hn hpie hpre
    have hle : fields.length ≤ cur := by omega
    rw [Expander.header_loop, dif_neg (by omega)]
    rw [List.drop_eq_nil_of_le hle, List.take_of_length_le hle]
    show (st, fields) = (st, fields ++ [])
    rw [List.append_nil]
  | succ n ih =>
    intro st fields cur hn hpie hpre
    by_cases h : cur < fields.length
    · rw [Expander.header_loop, dif_pos h]
      dsimp only
      have hpre1 : (st.expand_header
          (fields.get ⟨cur, h⟩)).1.to_prepend = [] := by
        rw [expand_header_to_prepend st _ hpie]; exact hpre
      have hpie1 : (st.expand_header
          (fields.get ⟨cur, h⟩)).1.process_imports_early = false := by
        rw [expand_header_pie]; exact hpie
      rw [hpre1, to_prepend_eta _ hpre1]
      rw [List.length_nil, List.append_nil, List.take_append_drop]
      rw [ih _ _ (cur + 0 + 1) (by
        rw [List.length_set]; omega) hpie1 hpre1]
      have hset := List.set_eq_take_cons_drop
        (st.expand_header (fields.get ⟨cur, h⟩)).2 h
      have hsplit : fields.take cur ++
          (st.expand_header (fields.get ⟨cur, h⟩)).2 ::
            fields.drop (cur + 1) =
          (fields.take cur ++ [(st.expand_header
            (fields.get ⟨cur, h⟩)).2]) ++ fields.drop (cur + 1) := by
        simp
      have hlen1 : (fields.take cur ++ [(st.expand_header
          (fields.get ⟨cur, h⟩)).2]).length = cur + 0 + 1 := by
        simp [List.length_take]
        omega
      have hdrop : (fields.set cur (st.expand_header
          (fields.get ⟨cur, h⟩)).2).drop (cur + 0 + 1) =
          fields.drop (cur + 1) := by
        rw [hset, hsplit, List.drop_left' hlen1]
      have htake : (fields.set cur (st.expand_header
          (fields.get ⟨cur, h⟩)).2).take (cur + 0 + 1) =
          fields.take cur ++ [(st.expand_header
            (fields.get ⟨cur, h⟩)).2] := by
        rw [hset, hsplit, List.take_left' hlen1]
      rw [hdrop, htake]
      have hcons : fields.drop cur = fields.get ⟨cur, h⟩ ::
          fields.drop (cur + 1) := by
        rw [List.drop_eq_getElem_cons h]
        rfl
      rw [hcons]
      show _ = ((((st.expand_header (fields.get ⟨cur, h⟩)).1.header_fold
          (fields.drop (cur + 1))).1),
        fields.take cur ++ (st.expand_header (fields.get ⟨cur, h⟩)).2 ::
          ((st.expand_header (fields.get ⟨cur, h⟩)).1.header_fold
            (fields.drop (cur + 1))).2)
      rw [List.append_assoc]
      rfl
    · rw [Expander.header_loop, dif_neg h]
      have hle : fields.length ≤ cur := by omega
      rw [List.drop_eq_nil_of_le hle, List.take_of_length_le hle]
      show (st, fields) = (st, fields ++ [])
      rw [List.append_nil]

theorem header_loop_eq_fold (st : Expander) (fields : List ModuleField)
    (hpie : st.process_imports_early = false) (hpre : st.to_prepend = []) :
    st.header_loop fields 0 = st.header_fold fields := by
  rw [header_loop_eq_fold_aux fields.length st fields 0 (by omega) hpie hpre]
  simp

end Wast

namespace Wast

/-! Body pass lemmas. -/

theorem expand_inert (st : Expander) (f : ModuleField)
    (h : isInert f = true) : st.expand f = (st, f) := by
  cases f <;> first
    | rfl
    | exact absurd h (by simp [isInert])

theorem expand_kind (st : Expander) (f : ModuleField) :
    fieldKind (st.expand f).2 = fieldKind f := by
  unfold Expander.expand
  cases f with
  | typ t => rfl
  | importF i =>
    dsimp only
    split <;> rfl
  | func f =>
    dsimp only
    split <;> rfl
  | global g =>
    dsimp only
    split <;> rfl
  | data d =>
    dsimp only
    split <;> rfl
  | elem el =>
    dsimp only
    split <;> split <;> rfl
  | tag t => rfl
  | table n => rfl
  | memory n => rfl
  | start i => rfl
  | exportF n => rfl
  | custom n => rfl

theorem expand_fields_append (st : Expander) (xs ys : List ModuleField) :
    st.expand_fields (xs ++ ys) =
      (((st.expand_fields xs).1.expand_fields ys).1,
        (st.expand_fields xs).2 ++ ((st.expand_fields xs).1.expand_fields ys).2) := by
  induction xs generalizing st with
  | nil => rfl
  | cons f rest ih =>
    show (let p := st.expand f
      let q := p.1.expand_fields (rest ++ ys)
      (q.1, p.2 :: q.2)) = _
    dsimp only
    rw [ih (st.expand f).1]
    rfl

theorem expand_fields_inert (st : Expander) (l : List ModuleField)
    (h : ∀ f ∈ l, isInert f = true) : st.expand_fields l = (st, l) := by
  induction l generalizing st with
  | nil => rfl
  | cons f rest ih =>
    show (let p := st.expand f
      let q := p.1.expand_fields rest
      (q.1, p.2 :: q.2)) = _
    rw [expand_inert st f (h f (by simp))]
    dsimp only
    rw [ih st (fun g hg => h g (by simp [hg]))]

theorem expand_fields_pie (st : Expander) (l : List ModuleField) :
    (st.expand_fields l).1.process_imports_early =
      st.process_imports_early := by
  induction l generalizing st with
  | nil => rfl
  | cons f rest ih =>
    show ((st.expand f).1.expand_fields rest).1.process_imports_early = _
    rw [ih, expand_pie]

theorem expand_fields_prependExt (st : Expander) (l : List ModuleField) :
    prependExt st.to_prepend (st.expand_fields l).1.to_prepend := by
  induction l generalizing st with
  | nil => exact prependExt_refl _
  | cons f rest ih =>
    exact prependExt_trans (expand_prependExt st f) (ih (st.expand f).1)

theorem expand_fields_kinds (st : Expander) (l : List ModuleField) :
    (st.expand_fields l).2.map fieldKind = l.map fieldKind := by
  induction l generalizing st with
  | nil => rfl
  | cons f rest ih =>
    show fieldKind (st.expand f).2 ::
        ((st.expand f).1.expand_fields rest).2.map fieldKind = _
    rw [expand_kind, ih, List.map_cons]

theorem expand_fields_filter_inert (st : Expander) (l : List ModuleField) :
    (st.expand_fields l).2.filter isInert = l.filter isInert := by
  induction l generalizing st with
  | nil => rfl
  | cons f rest ih =>
    show ((st.expand f).2 ::
        ((st.expand f).1.expand_fields rest).2).filter isInert = _
    rw [List.filter_cons, List.filter_cons]
    have hik : isInert (st.expand f).2 = isInert f := by
      rw [isInert_eq_kind, isInert_eq_kind, expand_kind]
    rw [hik, ih]
    by_cases hi : isInert f = true
    · rw [if_pos hi, if_pos hi, expand_inert st f hi]
    · rw [if_neg hi, if_neg hi]

end Wast

namespace Wast

/-! Identity of the body pass on already-resolved data (second run). -/

theorem expand_type_use_resolved (st : Expander) (tu : TypeUse)
    (h : tuResolved tu) : ∃ idx, st.expand_type_use tu = (st, tu, idx) := by
  obtain ⟨r, hr, hv⟩ := h
  refine ⟨r.idx, ?_⟩
  unfold Expander.expand_type_use
  rw [hr]
  dsimp only
  have hrr : ({ r with visited := true } : ItemRef) = r := by
    cases r
    simp_all
  rw [hrr]
  have : ({ tu with index := some r } : TypeUse) = tu := by
    cases tu
    simp_all
  rw [this]

theorem expand_block_ty_resolved (st : Expander) (bt : BlockType)
    (h : blockResolved bt) : st.expand_block_ty bt = (st, bt) := by
  unfold Expander.expand_block_ty
  rcases h with hidx | ⟨ft, hft, hp, hr⟩
  · rw [if_pos hidx]
  · split
    · rfl
    · split
      · next inl heq =>
        rw [hft] at heq
        injection heq with he
        subst he
        rw [if_pos ⟨by rw [hp]; rfl, hr⟩]
      · next heq =>
        rw [hft] at heq
        cases heq

theorem expand_instr_resolved (st : Expander) (i : Instruction)
    (h : instrResolved i) : st.expand_instr i = (st, i) := by
  cases i with
  | block bt =>
    unfold Expander.expand_instr
    dsimp only
    rw [expand_block_ty_resolved st bt h]
  | if_ bt =>
    unfold Expander.expand_instr
    dsimp only
    rw [expand_block_ty_resolved st bt h]
  | loop bt =>
    unfold Expander.expand_instr
    dsimp only
    rw [expand_block_ty_resolved st bt h]
  | try_ bt =>
    unfold Expander.expand_instr
    dsimp only
    rw [expand_block_ty_resolved st bt h]
  | let_ lt =>
    unfold Expander.expand_instr
    dsimp only
    rw [expand_block_ty_resolved st lt.block h]
  | funcBind b =>
    obtain ⟨idx, heq⟩ := expand_type_use_resolved st b.ty h
    unfold Expander.expand_instr
    dsimp only
    rw [heq]
  | callIndirect c =>
    obtain ⟨idx, heq⟩ := expand_type_use_resolved st c.ty h
    unfold Expander.expand_instr
    dsimp only
    rw [heq]
  | returnCallIndirect c =>
    obtain ⟨idx, heq⟩ := expand_type_use_resolved st c.ty h
    unfold Expander.expand_instr
    dsimp only
    rw [heq]
  | other n => rfl

theorem expand_instrs_resolved (st : Expander) (l : List Instruction)
    (h : ∀ i ∈ l, instrResolved i) : st.expand_instrs l = (st, l) := by
  induction l generalizing st with
  | nil => rfl
  | cons i rest ih =>
    show (let p := st.expand_instr i
      let q := p.1.expand_instrs rest
      (q.1, p.2 :: q.2)) = _
    rw [expand_instr_resolved st i (h i (by simp))]
    dsimp only
    rw [ih st (fun j hj => h j (by simp [hj]))]

theorem expand_expression_resolved (st : Expander) (e : Expression)
    (h : exprResolved e) : st.expand_expression e = (st, e) := by
  unfold Expander.expand_expression
  rw [expand_instrs_resolved st e.instrs h]

theorem expand_exprs_resolved (st : Expander) (l : List Expression)
    (h : ∀ e ∈ l, exprResolved e) : st.expand_exprs l = (st, l) := by
  induction l generalizing st with
  | nil => rfl
  | cons e rest ih =>
    show (let p := st.expand_expression e
      let q := p.1.expand_exprs rest
      (q.1, p.2 :: q.2)) = _
    rw [expand_expression_resolved st e (h e (by simp))]
    dsimp only
    rw [ih st (fun e2 he2 => h e2 (by simp [he2]))]

theorem expand_item_sig_resolved (st : Expander) (s : ItemSig)
    (h : sigResolved s) : st.expand_item_sig s = (st, s) := by
  unfold Expander.expand_item_sig
  unfold sigResolved at h
  split
  · next t heq =>
    rw [heq] at h
    obtain ⟨idx, he⟩ := expand_type_use_resolved st t h
    rw [he]
    dsimp only
    rw [show ({ s with kind := .func t } : ItemSig) = s by
      cases s; simp_all]
  · next t heq =>
    rw [heq] at h
    obtain ⟨idx, he⟩ := expand_type_use_resolved st t h
    rw [he]
    dsimp only
    rw [show ({ s with kind := .tag (.exception t) } : ItemSig) = s by
      cases s; simp_all]
  · rfl

theorem expand_resolved (st : Expander) (f : ModuleField)
    (h : fieldResolved f) : st.expand f = (st, f) := by
  cases f with
  | typ t => rfl
  | importF i =>
    unfold Expander.expand
    dsimp only
    split
    · rfl
    · rw [expand_item_sig_resolved st i.item h]
  | func f =>
    obtain ⟨htu, hkind⟩ := h
    obtain ⟨idx, he⟩ := expand_type_use_resolved st f.ty htu
    unfold Expander.expand
    dsimp only
    rw [he]
    obtain ⟨fid, fty, fkind⟩ := f
    cases fkind with
    | inline locals e =>
      dsimp only at hkind ⊢
      rw [expand_expression_resolved st e hkind]
    | importK n => rfl
  | global g =>
    obtain ⟨gid, gkind⟩ := g
    cases gkind with
    | inline e =>
      unfold Expander.expand
      dsimp only at h ⊢
      rw [expand_expression_resolved st e h]
    | importK n => rfl
  | data d =>
    obtain ⟨dkind, dp⟩ := d
    cases dkind with
    | active mem off =>
      unfold Expander.expand
      dsimp only at h ⊢
      rw [expand_expression_resolved st off h]
    | passive => rfl
  | elem el =>
    obtain ⟨hkind, hpayload⟩ := h
    obtain ⟨ekind, epayload⟩ := el
    unfold Expander.expand
    cases ekind with
    | active tbl off =>
      dsimp only at hkind ⊢
      rw [expand_expression_resolved st off hkind]
      cases epayload with
      | indices l => rfl
      | exprs ty es =>
        dsimp only at hpayload ⊢
        rw [expand_exprs_resolved st es hpayload]
    | passive =>
      cases epayload with
      | indices l => rfl
      | exprs ty es =>
        dsimp only at hpayload ⊢
        rw [expand_exprs_resolved st es hpayload]
    | declared =>
      cases epayload with
      | indices l => rfl
      | exprs ty es =>
        dsimp only at hpayload ⊢
        rw [expand_exprs_resolved st es hpayload]
  | tag t =>
    obtain ⟨tty⟩ := t
    cases tty with
    | exception tu =>
      dsimp only [fieldResolved] at h
      obtain ⟨idx, he⟩ := expand_type_use_resolved st tu h
      unfold Expander.expand
      dsimp only
      rw [he]
  | table n => rfl
  | memory n => rfl
  | start i => rfl
  | exportF n => rfl
  | custom n => rfl

theorem expand_fields_resolved (st : Expander) (l : List ModuleField)
    (h : ∀ f ∈ l, fieldResolved f) : st.expand_fields l = (st, l) := by
  induction l generalizing st with
  | nil => rfl
  | cons f rest ih =>
    show (let p := st.expand f
      let q := p.1.expand_fields rest
      (q.1, p.2 :: q.2)) = _
    rw [expand_resolved st f (h f (by simp))]
    dsimp only
    rw [ih st (fun g hg => h g (by simp [hg]))]

end Wast

namespace Wast

/-! The first run leaves everything resolved. -/

theorem expand_type_use_post (st : Expander) (tu : TypeUse) :
    tuResolved (st.expand_type_use tu).2.1 := by
  unfold Expander.expand_type_use
  split
  · next r _ => exact ⟨{ r with visited := true }, rfl, rfl⟩
  · exact ⟨⟨(st.key_to_idx 0 _).2, true⟩, rfl, rfl⟩

theorem expand_block_ty_post (st : Expander) (bt : BlockType) :
    blockResolved (st.expand_block_ty bt).2 := by
  unfold Expander.expand_block_ty
  split
  · next hidx => exact Or.inl hidx
  · split
    · next inl heq =>
      split
      · next hshort =>
        exact Or.inr ⟨inl, heq, List.length_eq_zero.1 hshort.1, hshort.2⟩
      · refine Or.inl ?_
        obtain ⟨r, hr, _⟩ := expand_type_use_post st bt.ty
        show ((st.expand_type_use bt.ty).2.1.index).isSome = true
        rw [hr]
        rfl
    · exact Or.inr ⟨FunctionType.default, rfl, rfl, by
        show (0 : Nat) ≤ 1
        omega⟩

theorem expand_instr_post (st : Expander) (i : Instruction) :
    instrResolved (st.expand_instr i).2 := by
  cases i with
  | block bt =>
    unfold Expander.expand_instr
    dsimp only
    exact expand_block_ty_post st bt
  | if_ bt =>
    unfold Expander.expand_instr
    dsimp only
    exact expand_block_ty_post st bt
  | loop bt =>
    unfold Expander.expand_instr
    dsimp only
    exact expand_block_ty_post st bt
  | try_ bt =>
    unfold Expander.expand_instr
    dsimp only
    exact expand_block_ty_post st bt
  | let_ lt =>
    unfold Expander.expand_instr
    dsimp only
    exact expand_block_ty_post st lt.block
  | funcBind b =>
    unfold Expander.expand_instr
    dsimp only
    exact expand_type_use_post st b.ty
  | callIndirect c =>
    unfold Expander.expand_instr
    dsimp only
    exact expand_type_use_post st c.ty
  | returnCallIndirect c =>
    unfold Expander.expand_instr
    dsimp only
    exact expand_type_use_post st c.ty
  | other n => trivial

theorem expand_instrs_post (st : Expander) (l : List Instruction) :
    ∀ i ∈ (st.expand_instrs l).2, instrResolved i := by
  induction l generalizing st with
  | nil => intro i hi; cases hi
  | cons j rest ih =>
    intro i hi
    rcases List.mem_cons.1 hi with rfl | hi
    · exact expand_instr_post ..
    · exact ih (st.expand_instr j).1 i hi

theorem expand_expression_post (st : Expander) (e : Expression) :
    exprResolved (st.expand_expression e).2 :=
  fun i hi => expand_instrs_post st e.instrs i hi

theorem expand_exprs_post (st : Expander) (l : List Expression) :
    ∀ e ∈ (st.expand_exprs l).2, exprResolved e := by
  induction l generalizing st with
  | nil => intro e he; cases he
  | cons e0 rest ih =>
    intro e he
    rcases List.mem_cons.1 he with rfl | he
    · exact expand_expression_post st e0
    · exact ih (st.expand_expression e0).1 e he

theorem expand_item_sig_post (st : Expander) (s : ItemSig) :
    sigResolved (st.expand_item_sig s).2 := by
  unfold Expander.expand_item_sig
  split
  · exact expand_type_use_post ..
  · exact expand_type_use_post ..
  · next hfn htg =>
    unfold sigResolved
    split
    · next heq =>
      exact absurd heq (hfn _)
    · next heq =>
      exact absurd heq (htg _)
    · trivial

theorem expand_post (st : Expander) (f : ModuleField)
    (hpie : st.process_imports_early = false)
    (h : headerDone f) : fieldResolved (st.expand f).2 := by
  cases f with
  | typ t => exact h
  | importF i =>
    unfold Expander.expand
    dsimp only
    split
    · next hcond =>
      rw [hpie] at hcond
      cases hcond
    · exact expand_item_sig_post st i.item
  | func f =>
    obtain ⟨fid, fty, fkind⟩ := f
    cases fkind with
    | inline locals e =>
      unfold Expander.expand
      dsimp only
      exact ⟨expand_type_use_post st fty, expand_expression_post _ e⟩
    | importK n =>
      unfold Expander.expand
      dsimp only
      exact ⟨expand_type_use_post st fty, trivial⟩
  | global g =>
    obtain ⟨gid, gkind⟩ := g
    cases gkind with
    | inline e =>
      unfold Expander.expand
      dsimp only
      exact expand_expression_post _ e
    | importK n => trivial
  | data d =>
    obtain ⟨dkind, dp⟩ := d
    cases dkind with
    | active mem off =>
      unfold Expander.expand
      dsimp only
      exact expand_expression_post _ off
    | passive => trivial
  | elem el =>
    obtain ⟨ekind, epayload⟩ := el
    cases ekind with
    | active tbl off =>
      cases epayload with
      | indices l =>
        unfold Expander.expand
        dsimp only
        exact ⟨expand_expression_post _ off, trivial⟩
      | exprs ty es =>
        unfold Expander.expand
        dsimp only
        exact ⟨expand_expression_post _ off, expand_exprs_post _ es⟩
    | passive =>
      cases epayload with
      | indices l => trivial
      | exprs ty es =>
        unfold Expander.expand
        dsimp only
        exact ⟨trivial, expand_exprs_post _ es⟩
    | declared =>
      cases epayload with
      | indices l => trivial
      | exprs ty es =>
        unfold Expander.expand
        dsimp only
        exact ⟨trivial, expand_exprs_post _ es⟩
  | tag t =>
    obtain ⟨tty⟩ := t
    cases tty with
    | exception tu =>
      unfold Expander.expand
      dsimp only
      exact expand_type_use_post st tu
  | table n => trivial
  | memory n => trivial
  | start i => trivial
  | exportF n => trivial
  | custom n => trivial

theorem expand_fields_post (st : Expander) (l : List ModuleField)
    (hpie : st.process_imports_early = false)
    (h : ∀ f ∈ l, headerDone f) :
    ∀ f ∈ (st.expand_fields l).2, fieldResolved f := by
  induction l generalizing st with
  | nil => intro f hf; cases hf
  | cons g rest ih =>
    intro f hf
    rcases List.mem_cons.1 hf with rfl | hf
    · exact expand_post st g hpie (h g (by simp))
    · exact ih (st.expand g).1 (by rw [expand_pie]; exact hpie)
        (fun f2 hf2 => h f2 (by simp [hf2])) f hf

end Wast

namespace Wast

/-! Assembly of the full pass. -/

theorem expand_types_eq (fields : List ModuleField) (g : Nat) :
    expand_types fields g =
      (((⟨false, [], [], g⟩ : Expander).header_fold fields).1.expand_fields
          ((⟨false, [], [], g⟩ : Expander).header_fold fields).2).2 ++
        (((⟨false, [], [], g⟩ : Expander).header_fold fields).1.expand_fields
          ((⟨false, [], [], g⟩ : Expander).header_fold fields).2).1.to_prepend := by
  unfold expand_types Expander.process
  rw [header_loop_eq_fold _ fields rfl rfl]

theorem expand_types_resolved (fields : List ModuleField) (g : Nat) :
    ∀ f ∈ expand_types fields g, fieldResolved f := by
  intro f hf
  rw [expand_types_eq] at hf
  have hsf := header_fold_state (⟨false, [], [], g⟩ : Expander) fields rfl
  rcases List.mem_append.1 hf with h | h
  · exact expand_fields_post _ _ hsf.1 (header_fold_headerDone _ _) f h
  · obtain ⟨ext, heq2, hgood⟩ := expand_fields_prependExt
      ((⟨false, [], [], g⟩ : Expander).header_fold fields).1
      ((⟨false, [], [], g⟩ : Expander).header_fold fields).2
    rw [heq2, hsf.2] at h
    obtain ⟨t, rfl, hid⟩ := hgood f (by
      simpa using h)
    exact hid

theorem expand_types_id (fields : List ModuleField) (g : Nat)
    (h : ∀ f ∈ fields, fieldResolved f) : expand_types fields g = fields := by
  rw [expand_types_eq]
  have hsf := header_fold_state (⟨false, [], [], g⟩ : Expander) fields rfl
  rw [header_fold_resolved_snd (⟨false, [], [], g⟩ : Expander) fields rfl h]
  rw [expand_fields_resolved _ fields h]
  rw [hsf.2]
  simp

end Wast

namespace Wast

/-! Frame lemmas at the whole-pass level. -/

theorem expand_types_prepend_typ (fields : List ModuleField) (g : Nat) :
    ∀ f ∈ (((⟨false, [], [], g⟩ : Expander).header_fold fields).1.expand_fields
        ((⟨false, [], [], g⟩ : Expander).header_fold fields).2).1.to_prepend,
      ∃ t : TypeF, f = ModuleField.typ t ∧ t.id.isSome = true := by
  intro f hf
  have hsf := header_fold_state (⟨false, [], [], g⟩ : Expander) fields rfl
  obtain ⟨ext, heq2, hgood⟩ := expand_fields_prependExt
    ((⟨false, [], [], g⟩ : Expander).header_fold fields).1
    ((⟨false, [], [], g⟩ : Expander).header_fold fields).2
  rw [heq2, hsf.2] at hf
  exact hgood f (by simpa using hf)

theorem expand_types_filter_inert (fields : List ModuleField) (g : Nat) :
    (expand_types fields g).filter isInert = fields.filter isInert := by
  rw [expand_types_eq, List.filter_append]
  rw [expand_fields_filter_inert, header_fold_filter_inert]
  have hnil : (((⟨false, [], [], g⟩ : Expander).header_fold fields).1.expand_fields
      ((⟨false, [], [], g⟩ : Expander).header_fold fields).2).1.to_prepend.filter
        isInert = [] := by
    rw [List.filter_eq_nil_iff]
    intro f hf
    obtain ⟨t, rfl, _⟩ := expand_types_prepend_typ fields g f hf
    simp [isInert]
  rw [hnil, List.append_nil]

theorem expand_types_kinds (fields : List ModuleField) (g : Nat) :
    ((expand_types fields g).map fieldKind).filter (fun k => !(isTypK k)) =
      (fields.map fieldKind).filter (fun k => !(isTypK k)) := by
  rw [expand_types_eq, List.map_append, List.filter_append]
  rw [expand_fields_kinds, header_fold_kinds]
  have hnil : ((((⟨false, [], [], g⟩ : Expander).header_fold fields).1.expand_fields
      ((⟨false, [], [], g⟩ : Expander).header_fold fields).2).1.to_prepend.map
        fieldKind).filter (fun k => !(isTypK k)) = [] := by
    rw [List.filter_eq_nil_iff]
    intro k hk
    obtain ⟨f, hf, rfl⟩ := List.mem_map.1 hk
    obtain ⟨t, rfl, _⟩ := expand_types_prepend_typ fields g f hf
    simp [fieldKind, isTypK]
  rw [hnil, List.append_nil]

end Wast

namespace Wast

/-! Computing the body pass on a function with an inline signature. -/

theorem expand_mkInlineFunc_miss (st : Expander) (id : Option Ident)
    (ft : FunctionType) (loc : Nat)
    (hmiss : lookupKey st.func_type_to_idx ft.key = none) :
    st.expand (mkInlineFunc id ft loc) =
      ({ st with
          func_type_to_idx := st.func_type_to_idx ++
            [(ft.key, Index.id (Ident.gensym (st.gensym + 1)))],
          to_prepend := st.to_prepend ++
            [.typ ⟨0, some (Ident.gensym (st.gensym + 1)), none,
              keyToDef ft.key⟩],
          gensym := st.gensym + 1 },
        .func ⟨id, ⟨some ⟨Index.id (Ident.gensym (st.gensym + 1)), true⟩,
          some ft⟩, .inline loc ⟨[]⟩⟩) := by
  unfold mkInlineFunc Expander.expand
  dsimp only
  unfold Expander.expand_type_use
  dsimp only
  unfold Expander.key_to_idx
  rw [hmiss]
  dsimp only
  unfold Expander.gen insertKey
  dsimp only
  rw [hmiss]
  rfl

theorem expand_mkInlineFunc_hit (st : Expander) (id : Option Ident)
    (ft : FunctionType) (loc : Nat) (idx : Index)
    (hhit : lookupKey st.func_type_to_idx ft.key = some idx) :
    st.expand (mkInlineFunc id ft loc) =
      (st, .func ⟨id, ⟨some ⟨idx, true⟩, some ft⟩, .inline loc ⟨[]⟩⟩) := by
  unfold mkInlineFunc Expander.expand
  dsimp only
  unfold Expander.expand_type_use
  dsimp only
  unfold Expander.key_to_idx
  rw [hhit]
  rfl

theorem isTypeField_of_inert (f : ModuleField) (h : isInert f = true) :
    isTypeField f = false := by
  cases f <;> first
    | rfl
    | exact absurd h (by simp [isInert])

end Wast

namespace Wast

theorem expand_fields_two_funcs (pre mid post : List ModuleField) (g : Nat)
    (hpre : ∀ f ∈ pre, isInert f = true)
    (hmid : ∀ f ∈ mid, isInert f = true)
    (hpost : ∀ f ∈ post, isInert f = true)
    (id1 id2 : Option Ident) (loc1 loc2 : Nat) (f1 f2 : FunctionType)
    (hkey : f1.key = f2.key) :
    (⟨false, [], [], g⟩ : Expander).expand_fields
        (pre ++ mkInlineFunc id1 f1 loc1 ::
          (mid ++ mkInlineFunc id2 f2 loc2 :: post)) =
      (⟨false, [(f1.key, Index.id (Ident.gensym (g + 1)))],
          [.typ ⟨0, some (Ident.gensym (g + 1)), none, keyToDef f1.key⟩],
          g + 1⟩,
        pre ++ resolvedFunc id1 f1 loc1 g ::
          (mid ++ resolvedFunc id2 f2 loc2 g :: post)) := by
  have hineP : ∀ st : Expander, st.expand_fields pre = (st, pre) :=
    fun st => expand_fields_inert st pre hpre
  have hineM : ∀ st : Expander, st.expand_fields mid = (st, mid) :=
    fun st => expand_fields_inert st mid hmid
  have hineO : ∀ st : Expander, st.expand_fields post = (st, post) :=
    fun st => expand_fields_inert st post hpost
  have hmiss := expand_mkInlineFunc_miss (⟨false, [], [], g⟩ : Expander)
    id1 f1 loc1 rfl
  have hhit2 : lookupKey [(f1.key, Index.id (Ident.gensym (g + 1)))] f2.key =
      some (Index.id (Ident.gensym (g + 1))) := by
    rw [← hkey]
    simp [lookupKey]
  have hhit := expand_mkInlineFunc_hit
    (⟨false, [(f1.key, Index.id (Ident.gensym (g + 1)))],
      [.typ ⟨0, some (Ident.gensym (g + 1)), none, keyToDef f1.key⟩],
      g + 1⟩ : Expander) id2 f2 loc2 _ hhit2
  have hcons : ∀ (st : Expander) (f : ModuleField) (rest : List ModuleField),
      st.expand_fields (f :: rest) =
        (((st.expand f).1.expand_fields rest).1,
          (st.expand f).2 :: ((st.expand f).1.expand_fields rest).2) :=
    fun _ _ _ => rfl
  rw [expand_fields_append, hineP]
  dsimp only
  rw [hcons, hmiss]
  dsimp only
  simp only [List.nil_append]
  rw [expand_fields_append, hineM]
  dsimp only
  rw [hcons, hhit]
  dsimp only
  rw [hineO]
  dsimp only
  rw [resolvedFunc, resolvedFunc]

end Wast

namespace Wast

theorem countP_typ_zero_of_inert (l : List ModuleField)
    (h : ∀ f ∈ l, isInert f = true) :
    l.countP (fun f => isTypeField f) = 0 :=
  List.countP_eq_zero.2 (fun f hf => by
    rw [isTypeField_of_inert f (h f hf)]
    simp)

/-- C1: in a module consisting of two functions with inline signatures of
equal structural key (surrounded by arbitrary inert fields), type-use
expansion resolves both signatures to the same interned index — the gensym
created for the first-seen occurrence — and the resolved field list
contains exactly one synthesized type entry for that structural shape. -/
theorem c1_interning_dedup (pre mid post : List ModuleField) (g : Nat)
    (hpre : ∀ f ∈ pre, isInert f = true)
    (hmid : ∀ f ∈ mid, isInert f = true)
    (hpost : ∀ f ∈ post, isInert f = true)
    (id1 id2 : Option Ident) (loc1 loc2 : Nat) (f1 f2 : FunctionType)
    (hkey : f1.key = f2.key) :
    expand_types (pre ++ mkInlineFunc id1 f1 loc1 ::
        (mid ++ mkInlineFunc id2 f2 loc2 :: post)) g =
      (pre ++ resolvedFunc id1 f1 loc1 g ::
        (mid ++ resolvedFunc id2 f2 loc2 g :: post)) ++
        [ModuleField.typ ⟨0, some (Ident.gensym (g + 1)), none,
          keyToDef f1.key⟩] ∧
    (expand_types (pre ++ mkInlineFunc id1 f1 loc1 ::
        (mid ++ mkInlineFunc id2 f2 loc2 :: post)) g).countP
      (fun f => isTypeField f) = 1 := by
  have hnt : ∀ f ∈ pre ++ mkInlineFunc id1 f1 loc1 ::
      (mid ++ mkInlineFunc id2 f2 loc2 :: post), isTypeField f = false := by
    intro f hf
    simp only [List.mem_append, List.mem_cons] at hf
    rcases hf with h | h | h | h | h
    · exact isTypeField_of_inert f (hpre f h)
    · subst h; rfl
    · exact isTypeField_of_inert f (hmid f h)
    · subst h; rfl
    · exact isTypeField_of_inert f (hpost f h)
  have hmain : expand_types (pre ++ mkInlineFunc id1 f1 loc1 ::
      (mid ++ mkInlineFunc id2 f2 loc2 :: post)) g =
      (pre ++ resolvedFunc id1 f1 loc1 g ::
        (mid ++ resolvedFunc id2 f2 loc2 g :: post)) ++
        [ModuleField.typ ⟨0, some (Ident.gensym (g + 1)), none,
          keyToDef f1.key⟩] := by
    rw [expand_types_eq]
    rw [header_fold_no_typ _ _ rfl hnt]
    dsimp only
    rw [expand_fields_two_funcs pre mid post g hpre hmid hpost
      id1 id2 loc1 loc2 f1 f2 hkey]
  refine ⟨hmain, ?_⟩
  rw [hmain]
  rw [List.countP_append, List.countP_append, List.countP_cons,
    List.countP_append, List.countP_cons]
  rw [countP_typ_zero_of_inert pre hpre, countP_typ_zero_of_inert mid hmid,
    countP_typ_zero_of_inert post hpost]
  simp [resolvedFunc, isTypeField]

/-- Witness for C1 at a concrete module: two textually distinct inline
`(i32, i32) -> i32` signatures around inert fields. -/
theorem c1_interning_dedup_witness :
    expand_types [ModuleField.table 5,
        mkInlineFunc none ⟨[(none, none, .i32), (none, none, .i32)], [.i32]⟩ 0,
        mkInlineFunc (some (.text "f"))
          ⟨[(some (.text "a"), some "x", .i32), (none, none, .i32)], [.i32]⟩ 1,
        ModuleField.custom 7] 0 =
      ([ModuleField.table 5] ++
        resolvedFunc none
          ⟨[(none, none, .i32), (none, none, .i32)], [.i32]⟩ 0 0 ::
        ([] ++ resolvedFunc (some (.text "f"))
          ⟨[(some (.text "a"), some "x", .i32), (none, none, .i32)], [.i32]⟩
            1 0 :: [ModuleField.custom 7])) ++
        [ModuleField.typ ⟨0, some (Ident.gensym 1), none,
          keyToDef ([.i32, .i32], [.i32])⟩] ∧
    (expand_types [ModuleField.table 5,
        mkInlineFunc none ⟨[(none, none, .i32), (none, none, .i32)], [.i32]⟩ 0,
        mkInlineFunc (some (.text "f"))
          ⟨[(some (.text "a"), some "x", .i32), (none, none, .i32)], [.i32]⟩ 1,
        ModuleField.custom 7] 0).countP (fun f => isTypeField f) = 1 :=
  c1_interning_dedup [ModuleField.table 5] [] [ModuleField.custom 7] 0
    (by decide) (by decide) (by decide) none (some (.text "f")) 0 1
    ⟨[(none, none, .i32), (none, none, .i32)], [.i32]⟩
    ⟨[(some (.text "a"), some "x", .i32), (none, none, .i32)], [.i32]⟩
    (by decide)

end Wast

namespace Wast

/-- C3: running the resolver's expansion a second time over a field list it
has already fully processed is a no-op: no new type fields are inserted and
no index, id, or inline annotation changes, whatever gensym counter the
second run starts from. -/
theorem c3_resolution_idempotent (fields : List ModuleField) (g g2 : Nat) :
    expand_types (expand_types fields g) g2 = expand_types fields g :=
  expand_types_id _ _ (expand_types_resolved fields g)

/-- C10: the expansion passes never modify Table, Memory, Start, Export, or
Custom fields — the header pass and the body pass are the identity on them
(state included), the whole pass preserves them verbatim and in order, and
every field the resolver inserts is a Type field (the non-Type kind
sequence is untouched). -/
theorem c10_frame_inert_fields (fields : List ModuleField) (g : Nat) :
    (∀ (st : Expander) (f : ModuleField), isInert f = true →
      st.expand_header f = (st, f)) ∧
    (∀ (st : Expander) (f : ModuleField), isInert f = true →
      st.expand f = (st, f)) ∧
    (expand_types fields g).filter isInert = fields.filter isInert ∧
    ((expand_types fields g).map fieldKind).filter (fun k => !(isTypK k)) =
      (fields.map fieldKind).filter (fun k => !(isTypK k)) :=
  ⟨expand_header_inert, expand_inert, expand_types_filter_inert fields g,
    expand_types_kinds fields g⟩

/-- Witness for C10: the header and body passes leave a concrete table
field (and the expander state) untouched, and a concrete module's inert
fields survive the pass verbatim. -/
theorem c10_frame_inert_fields_witness :
    (⟨false, [], [], 0⟩ : Expander).expand_header (.table 5) =
      (⟨false, [], [], 0⟩, .table 5) ∧
    (⟨false, [], [], 0⟩ : Expander).expand (.memory 3) =
      (⟨false, [], [], 0⟩, .memory 3) ∧
    (expand_types [.table 5, .custom 2] 0).filter isInert =
      ([.table 5, .custom 2] : List ModuleField).filter isInert :=
  ⟨(c10_frame_inert_fields [] 0).1 _ _ (by decide),
    (c10_frame_inert_fields [] 0).2.1 _ _ (by decide),
    (c10_frame_inert_fields [.table 5, .custom 2] 0).2.2.1⟩

end Wast

namespace Wast

/-! Case analysis of the block-type policy (C2). -/

theorem lookupKey_append_self (m : List (FuncKey × Index)) (k : FuncKey)
    (i : Index) (h : lookupKey m k = none) :
    lookupKey (m ++ [(k, i)]) k = some i := by
  induction m with
  | nil => simp [lookupKey]
  | cons p rest ih =>
    rw [List.cons_append]
    unfold lookupKey at h ⊢
    split at h
    · cases h
    · next hne =>
      rw [if_neg hne]
      exact ih h

theorem key_to_idx_hit (st : Expander) (s : Span) (k : FuncKey) (j : Index)
    (h : lookupKey st.func_type_to_idx k = some j) :
    st.key_to_idx s k = (st, j) := by
  unfold Expander.key_to_idx
  rw [h]

theorem key_to_idx_miss (st : Expander) (s : Span) (k : FuncKey)
    (h : lookupKey st.func_type_to_idx k = none) :
    st.key_to_idx s k =
      ({ st with
          func_type_to_idx := st.func_type_to_idx ++
            [(k, Index.id (Ident.gensym (st.gensym + 1)))],
          to_prepend := st.to_prepend ++
            [.typ ⟨s, some (Ident.gensym (st.gensym + 1)), none,
              keyToDef k⟩],
          gensym := st.gensym + 1 },
        Index.id (Ident.gensym (st.gensym + 1))) := by
  unfold Expander.key_to_idx
  rw [h]
  dsimp only
  unfold Expander.gen insertKey
  dsimp only
  rw [h]

theorem key_to_idx_lookup (st : Expander) (s : Span) (k : FuncKey) :
    lookupKey (st.key_to_idx s k).1.func_type_to_idx k =
      some (st.key_to_idx s k).2 := by
  cases h : lookupKey st.func_type_to_idx k with
  | some j => rw [key_to_idx_hit st s k j h]; exact h
  | none =>
    rw [key_to_idx_miss st s k h]
    exact lookupKey_append_self _ _ _ h

theorem expand_block_ty_idx (st : Expander) (r : ItemRef)
    (binl : Option FunctionType) :
    st.expand_block_ty ⟨⟨some r, binl⟩⟩ = (st, ⟨⟨some r, binl⟩⟩) := by
  unfold Expander.expand_block_ty
  simp

theorem expand_block_ty_short (st : Expander) (ft : FunctionType)
    (hp : ft.params = []) (hr : ft.results.length ≤ 1) :
    st.expand_block_ty ⟨⟨none, some ft⟩⟩ = (st, ⟨⟨none, some ft⟩⟩) := by
  unfold Expander.expand_block_ty
  rw [if_neg (by simp)]
  dsimp only
  rw [if_pos ⟨by rw [hp]; rfl, hr⟩]

theorem expand_block_ty_nothing (st : Expander) :
    st.expand_block_ty ⟨⟨none, none⟩⟩ =
      (st, ⟨⟨none, some FunctionType.default⟩⟩) := by
  unfold Expander.expand_block_ty
  rw [if_neg (by simp)]

theorem expand_block_ty_multi (st : Expander) (ft : FunctionType)
    (h : ¬(ft.params.length = 0 ∧ ft.results.length ≤ 1)) :
    st.expand_block_ty ⟨⟨none, some ft⟩⟩ =
      ((st.key_to_idx 0 ft.key).1,
        ⟨⟨some ⟨(st.key_to_idx 0 ft.key).2, true⟩, some ft⟩⟩) := by
  unfold Expander.expand_block_ty
  rw [if_neg (by simp)]
  dsimp only
  rw [if_neg h]
  unfold Expander.expand_type_use
  dsimp only

theorem expand_instr_mkCtrl (c : Fin 5) (loc : Nat) (st : Expander)
    (bt : BlockType) :
    st.expand_instr (mkCtrl c loc bt) =
      ((st.expand_block_ty bt).1, mkCtrl c loc (st.expand_block_ty bt).2) := by
  fin_cases c <;> rfl

end Wast

namespace Wast

/-- C2: the block-type policy for every control-flow instruction (block,
if, loop, let, try).  (a) an explicit type index is left unchanged; (b) an
inline signature with zero parameters and at most one result is left
unchanged, synthesizes nothing, and is encoded in short form (0x40 when
empty, else the single result's value type); (c) a missing block type is
filled with the empty signature, synthesizing nothing; (d) any other
inline signature is interned through `key_to_idx` — with a type entry
appended only on a true miss, the first-seen index reused on a hit — and a
numeric block-type index is encoded as a signed LEB. -/
theorem c2_blocktype_policy (c : Fin 5) (loc : Nat) (st : Expander)
    (bt : BlockType) :
    (bt.ty.index.isSome = true →
      st.expand_instr (mkCtrl c loc bt) = (st, mkCtrl c loc bt)) ∧
    (∀ ft : FunctionType, bt.ty.index = none → bt.ty.inline = some ft →
      ft.params = [] → ft.results.length ≤ 1 →
      st.expand_instr (mkCtrl c loc bt) = (st, mkCtrl c loc bt) ∧
      (ft.results = [] → encodeBlockType bt = some [0x40]) ∧
      (∀ r : ValType, ft.results = [r] →
        encodeBlockType bt = encodeValType r)) ∧
    (bt.ty.index = none → bt.ty.inline = none →
      st.expand_instr (mkCtrl c loc bt) =
        (st, mkCtrl c loc ⟨⟨none, some FunctionType.default⟩⟩)) ∧
    (∀ ft : FunctionType, bt.ty.index = none → bt.ty.inline = some ft →
      ¬(ft.params = [] ∧ ft.results.length ≤ 1) →
      ∃ idx : Index,
        st.expand_instr (mkCtrl c loc bt) =
          ((st.key_to_idx 0 ft.key).1,
            mkCtrl c loc ⟨⟨some ⟨idx, true⟩, some ft⟩⟩) ∧
        (st.key_to_idx 0 ft.key).2 = idx ∧
        lookupKey (st.key_to_idx 0 ft.key).1.func_type_to_idx ft.key =
          some idx ∧
        (lookupKey st.func_type_to_idx ft.key = none →
          (st.key_to_idx 0 ft.key).1.to_prepend = st.to_prepend ++
            [ModuleField.typ ⟨0, some (Ident.gensym (st.gensym + 1)), none,
              keyToDef ft.key⟩]) ∧
        (∀ j : Index, lookupKey st.func_type_to_idx ft.key = some j →
          idx = j ∧ (st.key_to_idx 0 ft.key).1 = st)) ∧
    (∀ (n : Nat) (v : Bool) (inl : Option FunctionType),
      encodeBlockType ⟨⟨some ⟨Index.num n, v⟩, inl⟩⟩ = some (sleb128 n)) := by
  obtain ⟨⟨bidx, binl⟩⟩ := bt
  refine ⟨?_, ?_, ?_, ?_, ?_⟩
  · intro h
    cases bidx with
    | none => cases h
    | some r =>
      rw [expand_instr_mkCtrl, expand_block_ty_idx]
  · intro ft hidx hinl hp hr
    dsimp only at hidx hinl
    subst hidx
    subst hinl
    refine ⟨?_, ?_, ?_⟩
    · rw [expand_instr_mkCtrl, expand_block_ty_short st ft hp hr]
    · intro hres
      obtain ⟨fp, fr⟩ := ft
      dsimp only at hp hres
      subst hp
      subst hres
      rfl
    · intro r hres
      obtain ⟨fp, fr⟩ := ft
      dsimp only at hp hres
      subst hp
      subst hres
      rfl
  · intro hidx hinl
    dsimp only at hidx hinl
    subst hidx
    subst hinl
    rw [expand_instr_mkCtrl, expand_block_ty_nothing]
  · intro ft hidx hinl hnot
    dsimp only at hidx hinl
    subst hidx
    subst hinl
    refine ⟨(st.key_to_idx 0 ft.key).2, ?_, rfl, key_to_idx_lookup .., ?_, ?_⟩
    · rw [expand_instr_mkCtrl, expand_block_ty_multi st ft (by
        rw [List.length_eq_zero]
        exact hnot)]
    · intro hmiss
      rw [key_to_idx_miss st 0 ft.key hmiss]
    · intro j hhit
      rw [key_to_idx_hit st 0 ft.key j hhit]
      exact ⟨rfl, rfl⟩
  · intro n v inl
    rfl

/-- Witness for C2 at concrete inputs: a `loop` with an explicit index is
untouched; an inline `(result i64)` block keeps its short `0x7e` encoding;
a bare `if` gets the empty signature; an inline two-result `try` interns a
new type entry; a numeric block-type index 100 is encoded as the signed
LEB `[0xe4, 0x00]`. -/
theorem c2_blocktype_policy_witness :
    (⟨false, [], [], 0⟩ : Expander).expand_instr
        (mkCtrl 2 0 ⟨⟨some ⟨Index.num 4, false⟩, none⟩⟩) =
      (⟨false, [], [], 0⟩, mkCtrl 2 0 ⟨⟨some ⟨Index.num 4, false⟩, none⟩⟩) ∧
    encodeBlockType ⟨⟨none, some ⟨[], [.i64]⟩⟩⟩ = encodeValType .i64 ∧
    (⟨false, [], [], 0⟩ : Expander).expand_instr (mkCtrl 1 0 ⟨⟨none, none⟩⟩) =
      (⟨false, [], [], 0⟩, mkCtrl 1 0 ⟨⟨none, some FunctionType.default⟩⟩) ∧
    (∃ idx : Index,
      (⟨false, [], [], 0⟩ : Expander).expand_instr
          (mkCtrl 4 0 ⟨⟨none, some ⟨[], [.i32, .i32]⟩⟩⟩) =
        (((⟨false, [], [], 0⟩ : Expander).key_to_idx 0
            (FunctionType.mk [] [.i32, .i32]).key).1,
          mkCtrl 4 0 ⟨⟨some ⟨idx, true⟩, some ⟨[], [.i32, .i32]⟩⟩⟩) ∧
      ((⟨false, [], [], 0⟩ : Expander).key_to_idx 0
          (FunctionType.mk [] [.i32, .i32]).key).2 = idx ∧
      lookupKey ((⟨false, [], [], 0⟩ : Expander).key_to_idx 0
          (FunctionType.mk [] [.i32, .i32]).key).1.func_type_to_idx
        (FunctionType.mk [] [.i32, .i32]).key = some idx ∧
      (lookupKey ([] : List (FuncKey × Index))
          (FunctionType.mk [] [.i32, .i32]).key = none →
        ((⟨false, [], [], 0⟩ : Expander).key_to_idx 0
            (FunctionType.mk [] [.i32, .i32]).key).1.to_prepend =
          ([] : List ModuleField) ++
            [ModuleField.typ ⟨0, some (Ident.gensym 1), none,
              keyToDef (FunctionType.mk [] [.i32, .i32]).key⟩]) ∧
      (∀ j : Index, lookupKey ([] : List (FuncKey × Index))
          (FunctionType.mk [] [.i32, .i32]).key = some j →
        idx = j ∧ ((⟨false, [], [], 0⟩ : Expander).key_to_idx 0
          (FunctionType.mk [] [.i32, .i32]).key).1 = ⟨false, [], [], 0⟩)) ∧
    encodeBlockType ⟨⟨some ⟨Index.num 100, true⟩, none⟩⟩ =
      some (sleb128 100) := by
  refine ⟨?_, ?_, ?_, ?_, ?_⟩
  · exact (c2_blocktype_policy 2 0 ⟨false, [], [], 0⟩
      ⟨⟨some ⟨Index.num 4, false⟩, none⟩⟩).1 rfl
  · exact ((c2_blocktype_policy 1 0 ⟨false, [], [], 0⟩
      ⟨⟨none, some ⟨[], [.i64]⟩⟩⟩).2.1 ⟨[], [.i64]⟩ rfl rfl rfl
        (by decide)).2.2 .i64 rfl
  · exact (c2_blocktype_policy 1 0 ⟨false, [], [], 0⟩
      ⟨⟨none, none⟩⟩).2.2.1 rfl rfl
  · exact (c2_blocktype_policy 4 0 ⟨false, [], [], 0⟩
      ⟨⟨none, some ⟨[], [.i32, .i32]⟩⟩⟩).2.2.2.1 ⟨[], [.i32, .i32]⟩ rfl rfl
        (by decide)
  · exact (c2_blocktype_policy 0 0 ⟨false, [], [], 0⟩
      ⟨⟨some ⟨Index.num 100, true⟩, none⟩⟩).2.2.2.2 100 true none

end Wast

namespace Wast

/-- C4 counterexample: a text-form component containing a nested-module
field — a construct with no implemented binary encoding — is encoded
without any error as an empty byte buffer, which does not begin with the
4-byte magic header. -/
theorem c4_component_encode_counterexample :
    Component.encode ⟨none, none, .text [.module 0]⟩ = Except.ok [] ∧
    ([] : List Nat).take 4 ≠ [0x00, 0x61, 0x73, 0x6d] :=
  ⟨rfl, by decide⟩

/-- C4 amended: `Component::encode` never raises an "unsupported construct"
error; for every text-form component it succeeds with an empty byte buffer
(the component encoder body is an explicitly documented TODO gap), and for
a binary-form component it returns the concatenation of the given
chunks. -/
theorem c4_component_encode_stub (c : Component) :
    Component.encode c = Except.ok (match c.kind with
      | .text _ => []
      | .binary bs => bs.flatten) := by
  obtain ⟨id, name, kind⟩ := c
  cases kind <;> rfl

/-- C5: a component whose field list holds more than one start field is
rejected by `Component::validate` with a hard error; the (spec-modelled)
module validation rejects a second start field the same way; and the raw
encoder's start bucket keeps only the first start field
(`start.get(0)`), which is why validation must run first. -/
theorem c5_multiple_start_rejected (c : Component)
    (fields : List ModuleField) :
    ((match c.kind with
        | .text fs => fs.countP (fun f => f.isStart)
        | .binary _ => 0) > 1 →
      Component.validate c = Except.error "multiple start sections found") ∧
    (fields.countP (fun f => f.isStart) > 1 →
      moduleValidate fields = Except.error "multiple start sections found") ∧
    (∀ (i : Index) (rest : List Index), startFields fields = i :: rest →
      encodedStart fields = some i) := by
  refine ⟨?_, ?_, ?_⟩
  · intro h
    unfold Component.validate
    rw [if_pos h]
  · intro h
    unfold moduleValidate
    rw [if_pos h]
  · intro i rest h
    unfold encodedStart
    rw [h]
    rfl

/-- Witness for C5: a component with two start fields is rejected, a module
field list with two start fields is rejected, and the encoder bucket keeps
only the first of the two. -/
theorem c5_multiple_start_rejected_witness :
    Component.validate ⟨none, none, .text [.start 0, .func 1, .start 2]⟩ =
      Except.error "multiple start sections found" ∧
    moduleValidate [.start (.num 0), .table 1, .start (.num 2)] =
      Except.error "multiple start sections found" ∧
    encodedStart [.start (.num 0), .table 1, .start (.num 2)] =
      some (.num 0) :=
  ⟨(c5_multiple_start_rejected ⟨none, none, .text [.start 0, .func 1, .start 2]⟩
      []).1 (by decide),
    (c5_multiple_start_rejected ⟨none, none, .text []⟩
      [.start (.num 0), .table 1, .start (.num 2)]).2.1 (by decide),
    (c5_multiple_start_rejected ⟨none, none, .text []⟩
      [.start (.num 0), .table 1, .start (.num 2)]).2.2 (.num 0) [.num 2]
      (by decide)⟩

end Wast

namespace Mutate

/-! The grouping map built by the scan holds at most the single registered
mutator's name as a key. -/

theorem addPos_keys (m : List (String × List (Nat × Nat))) (k : String)
    (p : Nat × Nat) :
    (addPos m k p).map Prod.fst =
      if k ∈ m.map Prod.fst then m.map Prod.fst
      else m.map Prod.fst ++ [k] := by
  induction m with
  | nil => simp [addPos]
  | cons e rest ih =>
    obtain ⟨k2, ps⟩ := e
    unfold addPos
    by_cases hk : k2 = k
    · subst hk
      rw [if_pos rfl]
      simp
    · rw [if_neg hk]
      simp only [List.map_cons]
      rw [ih]
      have hmem : k ∈ k2 :: rest.map Prod.fst ↔ k ∈ rest.map Prod.fst := by
        simp [List.mem_cons]
        intro he
        exact absurd he.symm hk
      by_cases hin : k ∈ rest.map Prod.fst
      · rw [if_pos hin, if_pos (hmem.2 hin)]
      · rw [if_neg hin, if_neg (fun hc => hin (hmem.1 hc))]
        simp

theorem addPos_keys_inv (m : List (String × List (Nat × Nat))) (k : String)
    (p : Nat × Nat)
    (h : m.map Prod.fst = [] ∨ m.map Prod.fst = [k]) :
    (addPos m k p).map Prod.fst = [k] := by
  rw [addPos_keys]
  rcases h with h | h
  · rw [h]
    simp
  · rw [h]
    simp

theorem scanOps_keys (sc : CodeMutator) (ops : List Operator) (fidx : Nat)
    (idxs : List Nat) (acc acc2 : List (String × List (Nat × Nat)))
    (hacc : acc.map Prod.fst = [] ∨ acc.map Prod.fst = [sc.name])
    (h : scanOps sc ops fidx idxs acc = some acc2) :
    acc2.map Prod.fst = [] ∨ acc2.map Prod.fst = [sc.name] := by
  induction idxs generalizing acc with
  | nil =>
    unfold scanOps at h
    cases h
    exact hacc
  | cons i rest ih =>
    unfold scanOps at h
    split at h
    · cases h
    · next b hb =>
      cases b with
      | false =>
        rw [if_neg (by simp)] at h
        exact ih acc hacc h
      | true =>
        rw [if_pos rfl] at h
        exact ih _ (Or.inr (addPos_keys_inv acc sc.name (fidx, i) hacc)) h

theorem scanFuncs_keys (sc : CodeMutator) (bodies : List FunctionBody)
    (fidxs : List Nat) (rnd rnd2 : Rng)
    (acc acc2 : List (String × List (Nat × Nat)))
    (hacc : acc.map Prod.fst = [] ∨ acc.map Prod.fst = [sc.name])
    (h : scanFuncs sc bodies fidxs rnd acc = some (rnd2, acc2)) :
    acc2.map Prod.fst = [] ∨ acc2.map Prod.fst = [sc.name] := by
  induction fidxs generalizing rnd acc with
  | nil =>
    unfold scanFuncs at h
    cases h
    exact hacc
  | cons fidx rest ih =>
    unfold scanFuncs at h
    split at h
    · cases h
    · split at h
      · cases h
      · split at h
        · cases h
        · split at h
          · cases h
          · next acc1 hscan =>
            exact ih _ _ (scanOps_keys sc _ fidx _ acc acc1 hacc hscan) h

end Mutate

namespace Mutate

/-- C6: with the engine's registered mutator set (the hardcoded singleton),
the selected (function, operator, mutator) triple and the output module are
independent of the `HashMap` key-iteration order — the only unseeded
source of variation — so two runs with the same seed, input and mutator
set pick the same triple and produce identical output. -/
theorem c6_mutation_deterministic (rnd : Rng) (data : List Nat)
    (sec : Except Nat (List (Except Nat FunctionBody))) (sc : CodeMutator)
    (ord1 ord2 : List String → List String)
    (h1 : ∀ l, (ord1 l).Perm l) (h2 : ∀ l, (ord2 l).Perm l) :
    pselect rnd sec sc ord1 = pselect rnd sec sc ord2 ∧
    pmutate rnd data sec sc ord1 = pmutate rnd data sec sc ord2 := by
  have hsel : pselect rnd sec sc ord1 = pselect rnd sec sc ord2 := by
    unfold pselect
    cases sec with
    | error e => rfl
    | ok entries =>
      dsimp only
      cases hg : genRange rnd 0 entries.length with
      | none => rfl
      | some p =>
        obtain ⟨f0, rnd1⟩ := p
        dsimp only
        cases hs : sequenceReads entries with
        | none => rfl
        | some bodies =>
          dsimp only
          cases hf : scanFuncs sc bodies (rot f0 bodies.length) rnd1 [] with
          | none => rfl
          | some q =>
            obtain ⟨rnd2, applicable⟩ := q
            dsimp only
            by_cases he : applicable.isEmpty = true
            · rw [if_pos he, if_pos he]
            · rw [if_neg he, if_neg he]
              have hkeys : applicable.map Prod.fst = [sc.name] := by
                rcases scanFuncs_keys sc bodies _ rnd1 rnd2 [] applicable
                  (Or.inl rfl) hf with hk | hk
                · exact absurd (List.isEmpty_iff.2 (List.map_eq_nil_iff.1 hk))
                    he
                · exact hk
              have hord : ord1 (applicable.map Prod.fst) =
                  ord2 (applicable.map Prod.fst) := by
                rw [hkeys, List.perm_singleton.1 (h1 [sc.name]),
                  List.perm_singleton.1 (h2 [sc.name])]
              rw [hord]
  refine ⟨hsel, ?_⟩
  unfold pmutate
  rw [hsel]

/-- Witness for C6 at a concrete run: identity and reversal key orders give
the same selection and the same output on a two-function module whose
every position matches. -/
theorem c6_mutation_deterministic_witness :
    pselect rng0 (Except.ok [Except.ok ⟨[0], Except.ok [7]⟩,
        Except.ok ⟨[1], Except.ok [8]⟩]) scTrue ordId =
      pselect rng0 (Except.ok [Except.ok ⟨[0], Except.ok [7]⟩,
        Except.ok ⟨[1], Except.ok [8]⟩]) scTrue (fun l => l.reverse) ∧
    pmutate rng0 [] (Except.ok [Except.ok ⟨[0], Except.ok [7]⟩,
        Except.ok ⟨[1], Except.ok [8]⟩]) scTrue ordId =
      pmutate rng0 [] (Except.ok [Except.ok ⟨[0], Except.ok [7]⟩,
        Except.ok ⟨[1], Except.ok [8]⟩]) scTrue (fun l => l.reverse) :=
  c6_mutation_deterministic rng0 []
    (Except.ok [Except.ok ⟨[0], Except.ok [7]⟩,
      Except.ok ⟨[1], Except.ok [8]⟩]) scTrue ordId (fun l => l.reverse)
    (fun l => List.Perm.refl l) (fun l => List.reverse_perm l)

end Mutate

namespace Mutate

theorem pselect_ok_inv (rnd : Rng)
    (sec : Except Nat (List (Except Nat FunctionBody))) (sc : CodeMutator)
    (ord : List String → List String) (bodies : List FunctionBody)
    (f o : Nat) (key : String) (rnd2 : Rng)
    (h : pselect rnd sec sc ord = .ok (bodies, f, o, key, rnd2)) :
    ∃ entries, sec = Except.ok entries ∧
      sequenceReads entries = some bodies := by
  unfold pselect at h
  cases sec with
  | error e => cases h
  | ok entries =>
    refine ⟨entries, rfl, ?_⟩
    dsimp only at h
    cases hg : genRange rnd 0 entries.length with
    | none => rw [hg] at h; cases h
    | some p =>
      obtain ⟨f0, rnd1⟩ := p
      rw [hg] at h
      dsimp only at h
      cases hs : sequenceReads entries with
      | none => rw [hs] at h; cases h
      | some bodies1 =>
        rw [hs] at h
        dsimp only at h
        cases hf : scanFuncs sc bodies1 (rot f0 bodies1.length) rnd1 [] with
        | none => rw [hf] at h; cases h
        | some q =>
          obtain ⟨rnd3, applicable⟩ := q
          rw [hf] at h
          dsimp only at h
          split at h
          · cases h
          · split at h
            · cases h
            · next p2 hg2 =>
              obtain ⟨ki, rnd4⟩ := p2
              split at h
              · cases h
              · split at h
                · cases h
                · split at h
                  · cases h
                  · split at h
                    · cases h
                    · next pos hpos =>
                      have h3 := MResult.ok.inj h
                      rw [Prod.mk.injEq] at h3
                      rw [h3.1]

end Mutate

namespace Mutate

/-- C7: for every successful peephole mutation, each emitted code-section
entry other than the single chosen function is the verbatim raw byte range
of that function in the input code section (`codes.raw`), not a
re-encoding. -/
theorem c7_mutation_locality (rnd : Rng) (data : List Nat)
    (sec : Except Nat (List (Except Nat FunctionBody))) (sc : CodeMutator)
    (ord : List String → List String) (out : List CodeEntry)
    (h : pmutate rnd data sec sc ord = .ok out) :
    ∃ (entries : List (Except Nat FunctionBody))
      (bodies : List FunctionBody) (f o : Nat) (key : String) (rnd2 : Rng),
      sec = Except.ok entries ∧
      sequenceReads entries = some bodies ∧
      pselect rnd sec sc ord = .ok (bodies, f, o, key, rnd2) ∧
      f < bodies.length ∧
      out.length = bodies.length ∧
      ∀ i : Nat, i < bodies.length → i ≠ f →
        out.get? i = (bodies.get? i).map (fun b => CodeEntry.raw b.bytes) := by
  unfold pmutate at h
  cases hp : pselect rnd sec sc ord with
  | notMatchingPeepholes => rw [hp] at h; cases h
  | parseErr e => rw [hp] at h; cases h
  | crash => rw [hp] at h; cases h
  | ok r =>
    obtain ⟨bodies, f, o, key, rnd2⟩ := r
    rw [hp] at h
    dsimp only at h
    obtain ⟨entries, hsec, hseq⟩ := pselect_ok_inv rnd sec sc ord
      bodies f o key rnd2 hp
    refine ⟨entries, bodies, f, o, key, rnd2, hsec, hseq, rfl, ?_⟩
    unfold reemit at h
    cases hb : bodies.get? f with
    | none => rw [hb] at h; cases h
    | some bf =>
      rw [hb] at h
      dsimp only at h
      cases hm : sc.mutate rnd2 bf o data with
      | error e => rw [hm] at h; cases h
      | ok p =>
        obtain ⟨newBytes, rnd3⟩ := p
        rw [hm] at h
        dsimp only at h
        have hout := (MResult.ok.inj h).symm
        have hflt : f < bodies.length := by
          rw [List.get?_eq_getElem?] at hb
          exact (List.getElem?_eq_some_iff.1 hb).1
        refine ⟨hflt, ?_, ?_⟩
        · rw [hout, List.length_map, List.length_range]
        · intro i hi hne
          rw [hout]
          rw [List.get?_eq_getElem?, List.getElem?_map,
            List.getElem?_range hi]
          rw [List.get?_eq_getElem?]
          rw [List.getElem?_eq_getElem hi]
          simp only [Option.map_some']
          rw [if_neg hne]
          congr 1
          rw [List.get?_eq_getElem?, List.getElem?_eq_getElem hi]
          rfl

/-- Witness for C7: a successful concrete mutation of the first of two
functions leaves the second function's bytes verbatim. -/
theorem c7_mutation_locality_witness :
    ∃ (entries : List (Except Nat FunctionBody))
      (bodies : List FunctionBody) (f o : Nat) (key : String) (rnd2 : Rng),
      (Except.ok [Except.ok ⟨[0], Except.ok [7]⟩,
        Except.ok ⟨[1], Except.ok [8]⟩] :
          Except Nat (List (Except Nat FunctionBody))) =
        Except.ok entries ∧
      sequenceReads entries = some bodies ∧
      pselect rng0 (Except.ok [Except.ok ⟨[0], Except.ok [7]⟩,
        Except.ok ⟨[1], Except.ok [8]⟩]) scTrue ordId =
        .ok (bodies, f, o, key, rnd2) ∧
      f < bodies.length ∧
      ([CodeEntry.fn [0, 9], CodeEntry.raw [1]] : List CodeEntry).length =
        bodies.length ∧
      ∀ i : Nat, i < bodies.length → i ≠ f →
        ([CodeEntry.fn [0, 9], CodeEntry.raw [1]] : List CodeEntry).get? i =
          (bodies.get? i).map (fun b => CodeEntry.raw b.bytes) :=
  c7_mutation_locality rng0 []
    (Except.ok [Except.ok ⟨[0], Except.ok [7]⟩, Except.ok ⟨[1], Except.ok [8]⟩])
    scTrue ordId [CodeEntry.fn [0, 9], CodeEntry.raw [1]] rfl

end Mutate

namespace Mutate

theorem sequenceReads_length (entries : List (Except Nat FunctionBody))
    (bodies : List FunctionBody) (h : sequenceReads entries = some bodies) :
    bodies.length = entries.length := by
  induction entries generalizing bodies with
  | nil =>
    unfold sequenceReads at h
    cases h
    rfl
  | cons e rest ih =>
    cases e with
    | error n =>
      unfold sequenceReads at h
      cases h
    | ok b =>
      unfold sequenceReads at h
      cases hr : sequenceReads rest with
      | none => rw [hr] at h; cases h
      | some l =>
        rw [hr] at h
        cases h
        simp [ih l hr]

theorem mem_rot_lt (s n x : Nat) (h : x ∈ rot s n) : x < n := by
  unfold rot at h
  rcases List.mem_append.1 h with h2 | h2
  · exact List.mem_range.1 (List.mem_of_mem_drop h2)
  · exact List.mem_range.1 (List.mem_of_mem_take h2)

theorem scanOps_silent (sc : CodeMutator) (ops : List Operator) (fidx : Nat)
    (idxs : List Nat) (acc : List (String × List (Nat × Nat)))
    (h : ∀ i, sc.can_mutate ops i = Except.ok false) :
    scanOps sc ops fidx idxs acc = some acc := by
  induction idxs with
  | nil => rfl
  | cons i rest ih =>
    unfold scanOps
    rw [h i]
    dsimp only
    rw [if_neg (by simp)]
    exact ih

theorem scanFuncs_silent (sc : CodeMutator) (bodies : List FunctionBody)
    (idxs : List Nat) (rnd : Rng) (acc : List (String × List (Nat × Nat)))
    (hmem : ∀ x ∈ idxs, x < bodies.length)
    (hops : ∀ b ∈ bodies, ∃ l, b.ops = Except.ok l ∧ l ≠ [] ∧
      ∀ i, sc.can_mutate l i = Except.ok false) :
    ∃ rnd2, scanFuncs sc bodies idxs rnd acc = some (rnd2, acc) := by
  induction idxs generalizing rnd with
  | nil => exact ⟨rnd, rfl⟩
  | cons fidx rest ih =>
    have hlt : fidx < bodies.length := hmem fidx (by simp)
    have hget : bodies.get? fidx = some (bodies.get ⟨fidx, hlt⟩) :=
      List.get?_eq_get hlt
    have hb : bodies.get ⟨fidx, hlt⟩ ∈ bodies := List.get_mem ..
    obtain ⟨l, hl, hlne, hfalse⟩ := hops _ hb
    have hpos : 0 < l.length := List.length_pos.2 hlne
    unfold scanFuncs
    rw [hget]
    dsimp only
    rw [hl]
    dsimp only
    unfold genRange
    rw [if_pos hpos]
    dsimp only
    rw [scanOps_silent sc l fidx _ acc hfalse]
    exact ih _ (fun x hx => hmem x (by simp [hx]))

/-- C8 counterexample: on a module whose code section holds zero functions
— so that, vacuously, no mutator reports an applicable position anywhere —
the engine panics in `rnd.gen_range(0, 0)` instead of returning the
dedicated `NotMatchingPeepholes` outcome. -/
theorem c8_no_applicable_counterexample :
    pmutate rng0 [] (Except.ok []) scFalse ordId = MResult.crash ∧
    MResult.crash ≠ (MResult.notMatchingPeepholes : MResult (List CodeEntry)) :=
  ⟨rfl, by decide⟩

/-- C8 amended: for every input module whose code section decodes to at
least one function, each of whose bodies decodes to a nonempty operator
list, on which the registered mutator reports no applicable position (and
its applicability test never errors), `mutate` returns the dedicated typed
`NotMatchingPeepholes` outcome. -/
theorem c8_no_applicable_signal (rnd : Rng) (data : List Nat)
    (entries : List (Except Nat FunctionBody)) (bodies : List FunctionBody)
    (sc : CodeMutator) (ord : List String → List String)
    (hseq : sequenceReads entries = some bodies)
    (hne : bodies ≠ [])
    (hops : ∀ b ∈ bodies, ∃ l, b.ops = Except.ok l ∧ l ≠ [] ∧
      ∀ i, sc.can_mutate l i = Except.ok false) :
    pmutate rnd data (Except.ok entries) sc ord =
      MResult.notMatchingPeepholes := by
  have hlen := sequenceReads_length entries bodies hseq
  have hpos : 0 < entries.length := by
    rw [← hlen]
    exact List.length_pos.2 hne
  have hsel : pselect rnd (Except.ok entries) sc ord =
      MResult.notMatchingPeepholes := by
    unfold pselect
    dsimp only
    unfold genRange
    rw [if_pos hpos]
    dsimp only
    rw [hseq]
    dsimp only
    obtain ⟨rnd2, hsf⟩ := scanFuncs_silent sc bodies
      (rot (0 + rnd.stream rnd.pos % (entries.length - 0)) bodies.length)
      { rnd with pos := rnd.pos + 1 } []
      (fun x hx => mem_rot_lt _ _ x hx) hops
    rw [hsf]
    dsimp only
    exact if_pos rfl
  unfold pmutate
  rw [hsel]

/-- Witness for C8 (amended): a one-function module with a single decoded
operator and the never-applicable mutator yields the dedicated outcome. -/
theorem c8_no_applicable_signal_witness :
    pmutate rng0 [] (Except.ok [Except.ok ⟨[0], Except.ok [7]⟩]) scFalse
      ordId = MResult.notMatchingPeepholes :=
  c8_no_applicable_signal rng0 [] [Except.ok ⟨[0], Except.ok [7]⟩]
    [⟨[0], Except.ok [7]⟩] scFalse ordId rfl (by decide)
    (by
      intro b hb
      rw [List.mem_singleton] at hb
      subst hb
      exact ⟨[7], rfl, by decide, fun i => rfl⟩)

/-- C9: a failing code-section header decode is surfaced as the typed
decode error (distinct from non-applicability), but a function body whose
operator sequence fails to decode, or a failing body read, makes the engine
panic through `.unwrap()` rather than return the decode error the claim
requires. -/
theorem c9_malformed_decode_behavior :
    pmutate rng0 [] (Except.error 3) scFalse ordId = MResult.parseErr 3 ∧
    pmutate rng0 [] (Except.ok [Except.ok ⟨[0], Except.error 7⟩]) scFalse
      ordId = MResult.crash ∧
    pmutate rng0 [] (Except.ok [Except.error 9]) scFalse ordId =
      MResult.crash ∧
    (MResult.crash : MResult (List CodeEntry)) ≠ MResult.parseErr 7 ∧
    (MResult.crash : MResult (List CodeEntry)) ≠
      MResult.notMatchingPeepholes :=
  ⟨rfl, rfl, rfl, by decide, by decide⟩

end Mutate
